import Mathlib

/-!
Verification development for the `drg-attacks` repository.

The attack algorithms are embedded from `src/attacks.rs`.  The graph
primitives (`graph.rs`) and `utils.rs` are not part of the provided
sources; those definitions are modelled from the specification and are
marked `Modelled from the spec:` in their doc comments.

Conventions of the embedding:
* machine integers (`usize`, `u64`) are `Nat`; where the Rust arithmetic
  wraps (u64/usize arithmetic in release builds, which is how the repo
  is run per its own docs) the embedding reduces modulo `U64 = 2 ^ 64`;
* Rust panics (`unwrap`, failed `assert!`, out-of-bounds indexing,
  division by zero) are modelled as `Except.error` values;
* loops without a structural termination argument take an explicit fuel
  argument; running out of fuel is the distinguished error `outOfFuel`
  (the Rust loops would simply keep running);
* `HashSet`-backed sets (`ExclusionSet`, `NodeSet`, `EdgeSet`) are
  modelled as duplicate-free lists in insertion order; every property
  proved about them is order-insensitive (membership and cardinality),
  matching what the Rust code observes of its hash sets.
-/

set_option maxRecDepth 10000

abbrev Node := Nat

/-- An edge of the DAG: ordered pair (parent, child). -/
structure Edge where
  parent : Node
  child : Node
deriving DecidableEq, Repr

instance : BEq Edge := ⟨fun a b => a.parent == b.parent && a.child == b.child⟩

instance : LawfulBEq Edge where
  eq_of_beq := by
    intro a b h
    cases a; cases b
    simp only [instBEqEdge, Bool.and_eq_true, beq_iff_eq] at h
    simp [h.1, h.2]
  rfl := by
    intro a
    simp [instBEqEdge]

/-- Modelled from the spec: interval of edge (p, c) is c - p. -/
def Edge.interval (e : Edge) : Nat := e.child - e.parent

/-- Modelled from the spec: a Graph is its size together with, for each
node, the ordered list of its parents (`graph.rs` is not in the provided
sources).  The size is the length of the parents table. -/
structure Graph where
  parents : List (List Node)
deriving DecidableEq, Repr

def Graph.size (g : Graph) : Nat := g.parents.length

def Graph.parentsOf (g : Graph) (v : Node) : List Node := g.parents.getD v []

/-- Modelled from the spec: the projected children lists (inverse of the
parent relation, ids ascending). -/
def Graph.childrenOf (g : Graph) (v : Node) : List Node :=
  (List.range g.size).filter (fun c => (g.parentsOf c).contains v)

/-- Edge enumeration.  The DP sums and the partition sets proved below are
insensitive to enumeration order; we enumerate children in ascending
order and, for each child, its parents in list order. -/
def Graph.edges (g : Graph) : List Edge :=
  (List.range g.size).flatMap (fun c => (g.parentsOf c).map (fun p => ⟨p, c⟩))

/-- Number of edges of the graph. -/
def Graph.count_edges (g : Graph) : Nat := g.edges.length

/-- Exclusion set: duplicate-free list of nodes in insertion order
(stand-in for the repo's ExclusionSet; only membership and cardinality
are observed). -/
abbrev ExclusionSet := List Node

/-- Insert a node into an exclusion set (no-op when present). -/
def insertNode (s : List Node) (v : Node) : List Node :=
  if s.contains v then s else s ++ [v]

/-- Modelled from the spec: depth DP values, nodes in topological (id)
order; a node in S contributes nothing and breaks paths.  `dp v` is the
number of NODES of the longest path ending at `v` inside G - S: the
spec's concrete greedy scenarios (S4, S5, mirrored from the repo's own
tests) force the node-counting convention, which this embedding follows.
Every theorem below is parametric in this depth function except for its
concrete witnesses. -/
def depthDPList (g : Graph) (s : List Node) : List Nat :=
  (List.range g.size).foldl
    (fun dp v =>
      let val :=
        if s.contains v then 0
        else (g.parentsOf v).foldl
          (fun m p => if s.contains p then m else max m (dp.getD p 0 + 1)) 1
      dp ++ [val])
    []

/-- Modelled from the spec: depth of G - S (longest path, counted in
edges, avoiding the nodes of S). -/
def Graph.depth_exclude (g : Graph) (s : List Node) : Nat :=
  (depthDPList g s).foldl max 0

/-- Modelled from the spec: depth of the full graph. -/
def Graph.depth (g : Graph) : Nat := g.depth_exclude []

/-- Modelled from the spec: depth DP skipping the edges in `es` (same
node-counting convention). -/
def depthEdgesDPList (g : Graph) (es : List Edge) : List Nat :=
  (List.range g.size).foldl
    (fun dp v =>
      let val :=
        (g.parentsOf v).foldl
          (fun m p => if es.contains ⟨p, v⟩ then m else max m (dp.getD p 0 + 1)) 1
      dp ++ [val])
    []

/-- Modelled from the spec: depth of the graph with the edges of `es`
removed. -/
def Graph.depth_exclude_edges (g : Graph) (es : List Edge) : Nat :=
  (depthEdgesDPList g es).foldl max 0

/-- Modelled from the spec: `remove S` deletes the nodes of S and their
incident edges; node ids are preserved and isolated nodes remain. -/
def Graph.remove (g : Graph) (s : List Node) : Graph :=
  ⟨(List.range g.size).map (fun v =>
    if s.contains v then []
    else (g.parentsOf v).filter (fun p => !s.contains p))⟩

/-- Modelled from the spec / utils.rs: width of a node id in bits
(bit size of usize). -/
def node_bitsize : Nat := 64

/-- Helper: index of the most significant bit at which a and b differ
(0 when a = b); structural recursion on fuel. -/
def msbd_aux : Nat → Nat → Nat → Nat
  | 0, _, _ => 0
  | fuel + 1, a, b => if a / 2 = b / 2 then 0 else msbd_aux fuel (a / 2) (b / 2) + 1

/-- Modelled from the spec / utils.rs: most significant differing bit of
the two endpoints of an edge. -/
def msbd (e : Edge) : Nat := msbd_aux node_bitsize e.parent e.child

/-- Edge set: duplicate-free list of edges in insertion order (stand-in
for the repo's HashSet-backed EdgeSet). -/
abbrev EdgeSet := List Edge

def insertEdge (es : List Edge) (e : Edge) : List Edge :=
  if es.contains e then es else es ++ [e]

/-- `valiant_partitions` from attacks.rs: bucket every edge by its most
significant differing bit. -/
def valiant_partitions (g : Graph) : List EdgeSet :=
  g.edges.foldl
    (fun eis e => eis.set (msbd e) (insertEdge (eis.getD (msbd e) []) e))
    (List.replicate node_bitsize [])

def rust_min_step {α : Type} (key : α → Nat) (acc : Option α) (x : α) :
    Option α :=
  match acc with
  | none => some x
  | some a => if key x < key a then some x else some a

/-- Rust `Iterator::min_by_key`: first element with minimal key. -/
def rust_min_by_key {α : Type} (key : α → Nat) (l : List α) : Option α :=
  l.foldl (rust_min_step key) none

def rust_max_step {α : Type} (key : α → Nat) (acc : Option α) (x : α) :
    Option α :=
  match acc with
  | none => some x
  | some a => if key a ≤ key x then some x else some a

/-- Rust `Iterator::max_by_key`: last element with maximal key. -/
def rust_max_by_key {α : Type} (key : α → Nat) (l : List α) : Option α :=
  l.foldl (rust_max_step key) none

/-- Errors of the embedding: `exhausted` is the `panic!("no more
partitions to use")` / `unwrap` on a missing partition (a bare panic
carrying no data), `assertFailed` a failed `assert!`, `divByZero` the
usize division by zero, `unwrapNone` an `unwrap` of `None`,
`indexPanic` an out-of-bounds index, `invalidOption` the
`panic!("invalid DepthReduceSet option")` arms, `outOfFuel` the fuel
bound of the embedding. -/
inductive AErr where
  | exhausted
  | assertFailed
  | divByZero
  | unwrapNone
  | indexPanic
  | invalidOption
  | outOfFuel
deriving DecidableEq, Repr

/-- `find_next` closure of `valiant_reduce_main`: the smallest non-empty
partition not yet chosen (enumeration index order breaks ties, as Rust's
`min_by_key` keeps the first minimum). -/
def find_next (partitions : List EdgeSet) (chosen : List Nat) :
    Option (Nat × EdgeSet) :=
  rust_min_by_key (fun iv => iv.2.length)
    ((partitions.enum.filter (fun iv => iv.2.length > 0)).filter
      (fun iv => !chosen.contains iv.1))

/-- The `while f(&s)` loop of `valiant_reduce_main`. -/
def valiant_loop (partitions : List EdgeSet) (f : List Node → Bool) :
    Nat → List Nat → List Node → Except AErr (List Node)
  | 0, _, _ => .error .outOfFuel
  | fuel + 1, chosen, s =>
    if f s then
      match find_next partitions chosen with
      | some (i, part) =>
        valiant_loop partitions f fuel (chosen ++ [i])
          (part.foldl (fun acc e => insertNode acc e.parent) s)
      | none => .error .exhausted
    else .ok s

/-- `valiant_reduce_main` from attacks.rs. -/
def valiant_reduce_main (g : Graph) (f : List Node → Bool) (fuel : Nat) :
    Except AErr (List Node) :=
  valiant_loop (valiant_partitions g) f fuel [] []

/-- Helper: floor of log2, structural recursion on fuel (fuel n is
sufficient since the argument halves). -/
def log2floor_aux : Nat → Nat → Nat
  | 0, _ => 0
  | fuel + 1, n => if n < 2 then 0 else log2floor_aux fuel (n / 2) + 1

def log2floor (n : Nat) : Nat := log2floor_aux n n

/-- Rust `usize::next_power_of_two`: smallest power of two ≥ n (1 for
n ≤ 1). -/
def next_power_of_two (n : Nat) : Nat :=
  if n ≤ 1 then 1 else 2 ^ (log2floor (n - 1) + 1)

/-- One iteration of `valiant_ab16` from attacks.rs.  The source computes
`ceil(log2(di as f32))`; `di` is a power of two, so that is exactly
`log2 di` (powers of two and their base-2 logarithms are exact in f32).
The usize division `mi / ki` panics in Rust when `ki = 0`. -/
def ab16_step (curr : Graph) : Except AErr (Graph × List Node) :=
  let partitions := valiant_partitions curr
  let mi := curr.count_edges
  let di := next_power_of_two curr.depth
  let ki := log2floor di
  if ki = 0 then .error .divByZero
  else
    let max_size := mi / ki
    match rust_min_by_key (fun part => part.length)
        ((partitions.filter (fun part => part.length > 0)).filter
          (fun part => part.length ≤ max_size)) with
    | none => .error .unwrapNone
    | some chosen =>
      if curr.depth_exclude_edges chosen ≤ di / 2 then
        let si := chosen.foldl (fun acc e => insertNode acc e.parent) []
        .ok (curr.remove si, si)
      else .error .assertFailed

/-- The `loop { ... }` of `valiant_ab16`: a do-while, the body always runs
once before the `depth <= target` check. -/
def ab16_loop (target : Nat) : Nat → Graph → List Node → Except AErr (List Node)
  | 0, _, _ => .error .outOfFuel
  | fuel + 1, curr, s =>
    match ab16_step curr with
    | .error e => .error e
    | .ok (curr2, si) =>
      let s2 := si.foldl (fun acc v => insertNode acc v) s
      if curr2.depth ≤ target then .ok s2
      else ab16_loop target fuel curr2 s2

/-- `valiant_ab16` from attacks.rs. -/
def valiant_ab16 (g : Graph) (target : Nat) (fuel : Nat) : Except AErr (List Node) :=
  ab16_loop target fuel (g.remove []) []

/-- `GreedyParams` from attacks.rs. -/
structure GreedyParams where
  k : Nat
  radius : Nat
  length : Nat
  reset : Bool
  iter_topk : Bool
  use_degree : Bool
deriving DecidableEq, Repr

/-- `Pair(node, incident-count)` from attacks.rs. -/
abbrev Pair := Nat × Nat

/-- Stable insertion: `before y x = true` keeps the already-placed `y`
in front of the incoming `x`. -/
def stable_insert {α : Type} (before : α → α → Bool) (x : α) : List α → List α
  | [] => [x]
  | y :: ys => if before y x then y :: stable_insert before x ys else x :: y :: ys

/-- Stable sort by repeated insertion, processing the input left to
right.  Stable sorts by a given key are unique, so this is the reference
for Rust's stable `sort_by_key`. -/
def stable_sort {α : Type} (before : α → α → Bool) (l : List α) : List α :=
  l.foldl (fun acc x => stable_insert before x acc) []

/-- `sort_by_key(|pair| Reverse(pair.1))`: stable, by count descending. -/
def sort_pairs_desc (l : List Pair) : List Pair :=
  stable_sort (fun y x => x.2 ≤ y.2) l

/-- 2^64: u64/usize arithmetic wraps at this modulus (release builds,
which is how the repo documents running the binary). -/
def U64 : Nat := 2 ^ 64

/-- Initial row of the `count_paths` DP: 1 for nodes of G - S. -/
def lvl0 (g : Graph) (s : List Node) : List Nat :=
  (List.range g.size).map (fun v => if s.contains v then 0 else 1)

/-- One `d`-iteration of the `ending_paths` update: for every edge with
parent outside S, `ending[child][d] += ending[parent][d-1]` (u64,
wrapping). -/
def next_ending (g : Graph) (s : List Node) (prev : List Nat) : List Nat :=
  g.edges.foldl
    (fun acc e =>
      if s.contains e.parent then acc
      else acc.set e.child ((acc.getD e.child 0 + prev.getD e.parent 0) % U64))
    (List.replicate g.size 0)

/-- One `d`-iteration of the `starting_paths` update: for every edge with
parent outside S, `starting[parent][d] += starting[child][d-1]` (u64,
wrapping). -/
def next_starting (g : Graph) (s : List Node) (prev : List Nat) : List Nat :=
  g.edges.foldl
    (fun acc e =>
      if s.contains e.parent then acc
      else acc.set e.parent ((acc.getD e.parent 0 + prev.getD e.child 0) % U64))
    (List.replicate g.size 0)

/-- All DP rows 0..len, row by row (`table.getD d` is the row of length
`d` paths; the in-place 2D array of the source writes row `d` reading
only row `d-1`, so the row-by-row construction is the same
computation). -/
def dp_table (next : List Nat → List Nat) (l0 : List Nat) (len : Nat) :
    List (List Nat) :=
  ((List.range len).foldl (fun acc _ => next acc.headI :: acc) [l0]).reverse

def ending_table (g : Graph) (s : List Node) (len : Nat) : List (List Nat) :=
  dp_table (next_ending g s) (lvl0 g s) len

def starting_table (g : Graph) (s : List Node) (len : Nat) : List (List Nat) :=
  dp_table (next_starting g s) (lvl0 g s) len

/-- Table accessor: value for node `v` at path length `d`. -/
def tget (t : List (List Nat)) (v d : Nat) : Nat := (t.getD d []).getD v 0

/-- The incident-path count of a node: `sum over d of
starting[v][d] * ending[v][len-d]` with u64 products and usize sum (both
wrapping). -/
def incident_of (endT startT : List (List Nat)) (len v : Nat) : Nat :=
  (List.range (len + 1)).foldl
    (fun acc d => (acc + tget startT v d * tget endT v (len - d) % U64) % U64) 0

/-- The unsorted incident list: one pair per node of G - S, in ascending
node order (`for_each_node`). -/
def incidents_from (g : Graph) (s : List Node) (len : Nat)
    (endT startT : List (List Nat)) : List Pair :=
  ((List.range g.size).filter (fun v => !s.contains v)).map
    (fun v => (v, incident_of endT startT len v))

/-- Path mode of `count_paths`. -/
def count_paths_path (g : Graph) (s : List Node) (len : Nat) : List Pair :=
  sort_pairs_desc
    (incidents_from g s len (ending_table g s len) (starting_table g s len))

/-- `count_paths_degree` from attacks.rs. -/
def count_paths_degree (g : Graph) (s : List Node) : List Pair :=
  sort_pairs_desc
    (((List.range g.size).filter (fun v => !s.contains v)).map
      (fun v => (v,
        ((g.childrenOf v).filter (fun c => !s.contains c)).length +
        ((g.parentsOf v).filter (fun q => !s.contains q)).length)))

/-- `count_paths` from attacks.rs. -/
def count_paths (g : Graph) (s : List Node) (p : GreedyParams) : List Pair :=
  if p.use_degree then count_paths_degree g s
  else count_paths_path g s p.length

/-- Reference (exact) DP rows: the same recurrence over unbounded
naturals, used to state what the counts would be without u64
wrapping. -/
def true_next_ending (g : Graph) (s : List Node) (prev : List Nat) : List Nat :=
  g.edges.foldl
    (fun acc e =>
      if s.contains e.parent then acc
      else acc.set e.child (acc.getD e.child 0 + prev.getD e.parent 0))
    (List.replicate g.size 0)

def true_next_starting (g : Graph) (s : List Node) (prev : List Nat) : List Nat :=
  g.edges.foldl
    (fun acc e =>
      if s.contains e.parent then acc
      else acc.set e.parent (acc.getD e.parent 0 + prev.getD e.child 0))
    (List.replicate g.size 0)

def true_ending_table (g : Graph) (s : List Node) (len : Nat) : List (List Nat) :=
  dp_table (true_next_ending g s) (lvl0 g s) len

def true_starting_table (g : Graph) (s : List Node) (len : Nat) : List (List Nat) :=
  dp_table (true_next_starting g s) (lvl0 g s) len

/-- Reference (exact) incident count of a node. -/
def true_incident_of (endT startT : List (List Nat)) (len v : Nat) : Nat :=
  (List.range (len + 1)).foldl
    (fun acc d => acc + tget startT v d * tget endT v (len - d)) 0

/-- `update_radius_set` rounds: each round expands the search frontier by
direct parents and children, inserting unseen nodes into the set and the
next frontier. -/
def update_radius_aux (g : Graph) (radius : Nat)
    (start : List Node × List Node) : List Node × List Node :=
  (List.range radius).foldl
    (fun st _ =>
      let closests := st.2.flatMap (fun v => g.parentsOf v ++ g.childrenOf v)
      closests.foldl
        (fun st2 n =>
          if st2.1.contains n then st2 else (st2.1 ++ [n], st2.2 ++ [n]))
        (st.1, ([] : List Node)))
    start

/-- `update_radius_set` from attacks.rs. -/
def update_radius_set (g : Graph) (node : Node) (inradius : List Node)
    (radius : Nat) : List Node :=
  (update_radius_aux g radius (insertNode inradius node, [node])).1

/-- The candidate walk of `append_removal` (radius > 0 case): state is
(count, set, inradius); `excluded` counts skipped candidates. -/
def removal_walk (g : Graph) (p : GreedyParams) :
    List Pair → Nat → Nat → List Node → List Node →
    Nat × List Node × List Node
  | [], count, _, s, ir => (count, s, ir)
  | pr :: rest, count, excluded, s, ir =>
    if p.iter_topk && count == p.k then (count, s, ir)
    else if !p.iter_topk && count + excluded == p.k then (count, s, ir)
    else if ir.contains pr.1 then removal_walk g p rest count (excluded + 1) s ir
    else removal_walk g p rest (count + 1) excluded (insertNode s pr.1)
        (update_radius_set g pr.1 ir p.radius)

/-- `append_removal` from attacks.rs.  Radius 0: insert the node returned
by `max_by_key` over the incident counts (`unwrap` panics on an empty
list).  Otherwise walk the ranked candidates; if none was inserted,
insert `incidents[0]` (a panic when the list is empty). -/
def append_removal (g : Graph) (set : List Node) (inradius : List Node)
    (incidents : List Pair) (p : GreedyParams) :
    Except AErr (List Node × List Node) :=
  if p.radius = 0 then
    match rust_max_by_key (fun pr => pr.2) incidents with
    | none => .error .unwrapNone
    | some m => .ok (insertNode set m.1, inradius)
  else
    match removal_walk g p incidents 0 0 set inradius with
    | (count, s2, ir2) =>
      if count = 0 then
        match incidents with
        | [] => .error .indexPanic
        | top :: _ =>
          .ok (insertNode s2 top.1, update_radius_set g top.1 ir2 p.radius)
      else .ok (s2, ir2)

/-- The `while f(&s, g)` loop of `greedy_reduce_main`. -/
def greedy_loop (g : Graph) (p : GreedyParams) (f : List Node → Graph → Bool) :
    Nat → List Node → List Node → Except AErr (List Node)
  | 0, _, _ => .error .outOfFuel
  | fuel + 1, s, inradius =>
    if f s g then
      match append_removal g s inradius (count_paths g s p) p with
      | .error e => .error e
      | .ok (s2, ir2) => greedy_loop g p f fuel s2 (if p.reset then [] else ir2)
    else .ok s

/-- `greedy_reduce_main` from attacks.rs (`children_project` is a no-op
here: children lists are computed on demand). -/
def greedy_reduce_main (g : Graph) (p : GreedyParams)
    (f : List Node → Graph → Bool) (fuel : Nat) : Except AErr (List Node) :=
  greedy_loop g p f fuel [] []

/-- `DepthReduceSet` from attacks.rs (the f32 DER target of
ExchangeNodes is modelled over ℚ). -/
inductive DepthReduceSet where
  | ValiantDepth (d : Nat)
  | ValiantSize (s : Nat)
  | ValiantAB16 (s : Nat)
  | GreedyDepth (d : Nat) (p : GreedyParams)
  | GreedySize (s : Nat) (p : GreedyParams)
  | ExchangeNodes (s : Nat) (target_der : ℚ)
deriving DecidableEq, Repr

/-- `valiant_reduce` from attacks.rs: dispatch on the target kind
(the `_ => panic!` arm is `invalidOption`). -/
def valiant_reduce (g : Graph) (d : DepthReduceSet) (fuel : Nat) :
    Except AErr (List Node) :=
  match d with
  | .ValiantDepth depth =>
    valiant_reduce_main g (fun set => decide (depth < g.depth_exclude set)) fuel
  | .ValiantSize size =>
    valiant_reduce_main g (fun set => decide (set.length < size)) fuel
  | .ValiantAB16 depth => valiant_ab16 g depth fuel
  | _ => .error .invalidOption

/-- `greedy_reduce` from attacks.rs.  For the size target the effective k
is `min(k, ceil(size as f32 * 0.01))`, modelled as the exact ceiling
`(size + 99) / 100`. -/
def greedy_reduce (g : Graph) (d : DepthReduceSet) (fuel : Nat) :
    Except AErr (List Node) :=
  match d with
  | .GreedyDepth depth p =>
    greedy_reduce_main g p (fun set g2 => decide (depth < g2.depth_exclude set)) fuel
  | .GreedySize size p =>
    greedy_reduce_main g
      ⟨min p.k ((size + 99) / 100), p.radius, p.length, p.reset, p.iter_topk,
        p.use_degree⟩
      (fun set _ => decide (set.length < size)) fuel
  | _ => .error .invalidOption

/-- Modelled from the spec: `active(S)` — both endpoints outside S. -/
def Edge.active (e : Edge) (s : List Node) : Bool :=
  !s.contains e.parent && !s.contains e.child

/-- Modelled from the spec: the endpoint of the edge closest to `x` (in
use `x` lies strictly between the endpoints; the parent is kept on a
tie). -/
def Edge.closest_to (e : Edge) (x : Nat) : Node :=
  if e.child - x < x - e.parent then e.child else e.parent

/-- Modelled from the spec: closed-interval overlap of two edges. -/
def Edge.overlaps (e o : Edge) : Bool :=
  e.parent ≤ o.child && o.parent ≤ e.child

/-- `crossing_edges` from attacks.rs: the active edges that cross the
frontier of the span, sorted by interval ascending.  Accessing the
parents of a child ≥ n (reached only when the caller passes a span
beyond the graph) is an index panic; the `assert!(interval <= span)`
loop is the `assertFailed` branch. -/
def crossing_edges (g : Graph) (left span : Nat) (s : List Node) :
    Except AErr (List Edge × Node) :=
  let frontier := left + span / 2
  let right := left + span
  let childs := List.range' (frontier + 1) (right - (frontier + 1))
  if childs.any (fun c => !s.contains c && decide (g.size ≤ c)) then
    .error .indexPanic
  else
    let crossing := childs.flatMap (fun child =>
      if s.contains child then []
      else (g.parentsOf child).filterMap (fun parent =>
        if s.contains parent then none
        else if !decide (parent < frontier) then none
        else if decide (parent < left) then none
        else some ⟨parent, child⟩))
    let sorted := stable_sort (fun y x => decide (y.interval ≤ x.interval)) crossing
    if sorted.any (fun e => decide (span < e.interval)) then .error .assertFailed
    else .ok (sorted, frontier)

/-- `detect_overlap` from attacks.rs. -/
def detect_overlap (left span : Nat) (exchanged : List Edge) : Bool :=
  exchanged.any (fun e => e.overlaps ⟨left, left + span⟩)

/-- `BestNER` from attacks.rs (f32 NER over ℚ). -/
structure BestNER where
  ner : ℚ
  switched_edge : Edge
  removed_nodes : List Node
deriving DecidableEq, Repr

/-- The walk over the crossing edges of one span of `cut_covering`:
accumulates removed nodes and the best NER; the `assert!` on re-insertion
is the `assertFailed` branch. -/
def scan_crossing (s : List Node) (target_der : ℚ) (frontier : Node) :
    List Edge → List Node → Option BestNER →
    Except AErr (List Node × Option BestNER)
  | [], removed, best => .ok (removed, best)
  | e :: rest, removed, best =>
    if !(e.active s && e.active removed) then
      scan_crossing s target_der frontier rest removed best
    else
      let node_to_remove := e.closest_to frontier
      if removed.contains node_to_remove then .error .assertFailed
      else
        let removed2 := removed ++ [node_to_remove]
        let ner : ℚ := (e.interval : ℚ) / (removed2.length : ℚ)
        let best2 :=
          if decide (target_der ≤ ner) &&
              (match best with
               | none => true
               | some b => decide (b.ner < ner)) then
            some ⟨ner, e, removed2⟩
          else best
        scan_crossing s target_der frontier rest removed2 best2

/-- The span-growing loop of `cut_covering`; the f32 `ceil(span * 1.5)`
is the exact `(3 * span + 1) / 2`. -/
def cut_loop (g : Graph) (target_der : ℚ) (left : Nat) (exchanged : List Edge) :
    Nat → Nat → List Node → Option BestNER →
    Except AErr (List Node × Option BestNER)
  | 0, _, _, _ => .error .outOfFuel
  | fuel + 1, span, s, best =>
    let span2 := (3 * span + 1) / 2
    let right := left + span2
    if decide (g.size ≤ right) then .ok (s, best)
    else if detect_overlap left span2 exchanged then .ok (s, best)
    else
      match crossing_edges g left span2 s with
      | .error e => .error e
      | .ok (crossing, frontier) =>
        let s2 :=
          if crossing.length == 0 && decide (target_der < (span2 : ℚ)) then
            insertNode s frontier
          else s
        let removed0 := if s2.contains frontier then [] else [frontier]
        match scan_crossing s2 target_der frontier crossing removed0 best with
        | .error e => .error e
        | .ok (_, best2) => cut_loop g target_der left exchanged fuel span2 s2 best2

/-- `cut_covering` from attacks.rs. -/
def cut_covering (g : Graph) (s : List Node) (target_der : ℚ) (left : Node)
    (exchanged : List Edge) (fuel : Nat) :
    Except AErr (List Node × Option Edge) :=
  let span := (Int.ceil target_der).toNat + 1
  match cut_loop g target_der left exchanged fuel span s none with
  | .error e => .error e
  | .ok (s2, best) =>
    match best with
    | some b =>
      .ok ((List.range g.size).foldl
            (fun acc v => if b.removed_nodes.contains v then insertNode acc v else acc)
            s2,
          some b.switched_edge)
    | none => .ok (s2, none)

/-- The outer `while left < size` loop of `exchange_nodes_attack`; the
inner span loop gets fuel `size + 2`, which it can never consume since
the span grows every iteration. -/
def exchange_loop (g : Graph) (target_der : ℚ) :
    Nat → Nat → List Node → List Edge → Except AErr (List Node)
  | 0, _, _, _ => .error .outOfFuel
  | fuel + 1, left, s, exchanged =>
    if decide (g.size ≤ left) then .ok s
    else
      match cut_covering g s target_der left exchanged (g.size + 2) with
      | .error e => .error e
      | .ok (s2, oe) =>
        exchange_loop g target_der fuel (left + 2) s2
          (match oe with
           | some e => exchanged ++ [e]
           | none => exchanged)

/-- `exchange_nodes_attack` from attacks.rs. -/
def exchange_nodes_attack (g : Graph) (target_der : ℚ) (fuel : Nat) :
    Except AErr (List Node) :=
  exchange_loop g target_der fuel 0 [] []

/-- `depth_reduce` from attacks.rs. -/
def depth_reduce (g : Graph) (drs : DepthReduceSet) (fuel : Nat) :
    Except AErr (List Node) :=
  match drs with
  | .ValiantDepth d => valiant_reduce g (.ValiantDepth d) fuel
  | .ValiantSize s => valiant_reduce g (.ValiantSize s) fuel
  | .ValiantAB16 s => valiant_reduce g (.ValiantAB16 s) fuel
  | .GreedyDepth d p => greedy_reduce g (.GreedyDepth d p) fuel
  | .GreedySize s p => greedy_reduce g (.GreedySize s p) fuel
  | .ExchangeNodes _ target_der => exchange_nodes_attack g target_der fuel

/-- `TargetRange` from attacks.rs: f64 endpoints modelled over ℚ (the
properties proved below are order/arithmetic-structural and exact at
every witness used). -/
structure TargetRange where
  start : ℚ
  interval : ℚ
  end_ : ℚ
deriving DecidableEq, Repr

/-- `AttackTarget` from attacks.rs. -/
inductive AttackTarget where
  | Depth (f : ℚ)
  | Size (f : ℚ)
deriving DecidableEq, Repr

/-- `AttackProfile` from attacks.rs. -/
structure AttackProfile where
  runs : Nat
  target : AttackTarget
  range : TargetRange
  attack : DepthReduceSet
deriving DecidableEq, Repr

/-- `SingleAttackResult` from attacks.rs. -/
structure SingleAttackResult where
  depth : ℚ
  exclusion_size : ℚ
deriving DecidableEq, Repr

/-- `AveragedAttackResult` from attacks.rs. -/
structure AveragedAttackResult where
  target : ℚ
  mean_depth : ℚ
  mean_size : ℚ
  mean_der : ℚ
deriving DecidableEq, Repr

/-- `AttackResults` from attacks.rs. -/
structure AttackResults where
  results : List AveragedAttackResult
  attack : DepthReduceSet
deriving DecidableEq, Repr

/-- The target-enumeration loop at the top of `attack_with_profile`:
push the running value, step it by `interval`, stop once it reaches or
exceeds `end`.  `none` is the fuel bound (the Rust loop would run
forever, e.g. for interval = 0 and start < end). -/
def targets_loop (interval end_ : ℚ) : Nat → ℚ → List ℚ → Option (List ℚ)
  | 0, _, _ => none
  | fuel + 1, target, acc =>
    let acc2 := acc ++ [target]
    let t2 := target + interval
    if decide (end_ ≤ t2) then some acc2 else targets_loop interval end_ fuel t2 acc2

/-- The emitted target list of a `TargetRange`. -/
def profile_targets (r : TargetRange) (fuel : Nat) : Option (List ℚ) :=
  targets_loop r.interval r.end_ fuel r.start []

/-- `Sum for SingleAttackResult` from attacks.rs. -/
def sum_results (l : List SingleAttackResult) : SingleAttackResult :=
  l.foldl (fun a b => ⟨a.depth + b.depth, a.exclusion_size + b.exclusion_size⟩)
    ⟨0, 0⟩

/-- `AveragedAttackResult::from_results` from attacks.rs. -/
def from_results (target : ℚ) (results : List SingleAttackResult) :
    AveragedAttackResult :=
  let agg := sum_results results
  let mean_depth := agg.depth / (results.length : ℚ)
  let mean_size := agg.exclusion_size / (results.length : ℚ)
  ⟨target, mean_depth, mean_size, (1 - mean_depth) / mean_size⟩

/-- `attack` from attacks.rs: run the reduction and report
(depth(G-S)/n, |S|/n). -/
def attack (g : Graph) (a : DepthReduceSet) (fuel : Nat) :
    Except AErr SingleAttackResult :=
  match depth_reduce g a fuel with
  | .error e => .error e
  | .ok set =>
    .ok ⟨(g.depth_exclude set : ℚ) / (g.size : ℚ),
         (set.length : ℚ) / (g.size : ℚ)⟩

/-- The per-target re-targeting match inside `attack_with_profile`. -/
def retarget (a : DepthReduceSet) (absolute : Nat) : DepthReduceSet :=
  match a with
  | .ValiantDepth _ => .ValiantDepth absolute
  | .ValiantSize _ => .ValiantSize absolute
  | .ValiantAB16 _ => .ValiantAB16 absolute
  | .GreedyDepth _ p => .GreedyDepth absolute p
  | .GreedySize _ p => .GreedySize absolute p
  | .ExchangeNodes _ t => .ExchangeNodes absolute t

/-- `(target * size as f64) as usize`: floor, saturating at 0. -/
def rat_to_abs (t : ℚ) (size : Nat) : Nat := (Int.floor (t * (size : ℚ))).toNat

/-- Modelled from the spec: `GraphSpec` (the seed and algorithm tag feed
only the out-of-scope graph construction, which is abstracted below as a
run-indexed family of graphs). -/
structure GraphSpec where
  size : Nat
deriving DecidableEq, Repr

/-- `attack_with_profile` from attacks.rs.  `Graph::new_from_rng` (the
out-of-scope seeded construction) is abstracted as `gen : run ↦ Graph`.
Runs are iterated in the outer loop and targets in the inner loop, as in
the source; a panic anywhere aborts the whole sweep (there is no
catching), which the `Except` monad models by short-circuiting. -/
def attack_with_profile (gen : Nat → Graph) (spec : GraphSpec)
    (profile : AttackProfile) (fuel : Nat) : Except AErr AttackResults :=
  match profile_targets profile.range fuel with
  | none => .error .outOfFuel
  | some targets =>
    match (List.range profile.runs).mapM (fun run =>
        targets.mapM (fun t =>
          attack (gen run) (retarget profile.attack (rat_to_abs t spec.size)) fuel)) with
    | .error e => .error e
    | .ok per_run =>
      .ok ⟨targets.enum.map (fun it =>
            from_results it.2 (per_run.map (fun rr => rr.getD it.1 ⟨0, 0⟩))),
          profile.attack⟩

instance exceptDecEq {ε α : Type} [DecidableEq ε] [DecidableEq α] :
    DecidableEq (Except ε α) := fun x y =>
  match x, y with
  | .ok a, .ok b =>
    if h : a = b then .isTrue (by rw [h])
    else .isFalse (by intro hc; cases hc; exact h rfl)
  | .error e, .error f =>
    if h : e = f then .isTrue (by rw [h])
    else .isFalse (by intro hc; cases hc; exact h rfl)
  | .ok _, .error _ => .isFalse (by intro hc; cases hc)
  | .error _, .ok _ => .isFalse (by intro hc; cases hc)

theorem insertNode_mem (s : List Node) (v w : Node) :
    w ∈ insertNode s v ↔ w ∈ s ∨ w = v := by
  unfold insertNode
  by_cases h : s.contains v
  · rw [if_pos h]
    constructor
    · exact fun hw => Or.inl hw
    · rintro (hw | rfl)
      · exact hw
      · exact List.elem_iff.mp h
  · rw [if_neg h]
    simp

theorem foldl_insertNode_parent_mem (part : List Edge) :
    ∀ (s : List Node) (v : Node),
      v ∈ part.foldl (fun acc e => insertNode acc e.parent) s ↔
        v ∈ s ∨ ∃ e ∈ part, e.parent = v := by
  induction part with
  | nil => simp
  | cons e rest ih =>
    intro s v
    simp only [List.foldl_cons]
    rw [ih, insertNode_mem]
    constructor
    · rintro ((hs | rfl) | ⟨e2, h2, rfl⟩)
      · exact Or.inl hs
      · exact Or.inr ⟨e, List.mem_cons_self e rest, rfl⟩
      · exact Or.inr ⟨e2, List.mem_cons_of_mem e h2, rfl⟩
    · rintro (hs | ⟨e2, h2, rfl⟩)
      · exact Or.inl (Or.inl hs)
      · rcases List.mem_cons.mp h2 with rfl | h3
        · exact Or.inl (Or.inr rfl)
        · exact Or.inr ⟨e2, h3, rfl⟩

theorem foldl_insertNode_id_mem (part : List Node) :
    ∀ (s : List Node) (v : Node),
      v ∈ part.foldl (fun acc w => insertNode acc w) s ↔ v ∈ s ∨ v ∈ part := by
  induction part with
  | nil => simp
  | cons w rest ih =>
    intro s v
    simp only [List.foldl_cons]
    rw [ih, insertNode_mem]
    constructor
    · rintro ((hs | rfl) | hr)
      · exact Or.inl hs
      · exact Or.inr (List.mem_cons_self _ _)
      · exact Or.inr (List.mem_cons_of_mem _ hr)
    · rintro (hs | hp)
      · exact Or.inl (Or.inl hs)
      · rcases List.mem_cons.mp hp with rfl | h3
        · exact Or.inl (Or.inr rfl)
        · exact Or.inr h3

/-- The fold of `rust_min_by_key` starting from a candidate `a`. -/
theorem min_fold_spec {α : Type} (key : α → Nat) :
    ∀ (l : List α) (a b : α),
      l.foldl (rust_min_step key) (some a) = some b →
      (b = a ∨ b ∈ l) ∧ key b ≤ key a ∧ ∀ y ∈ l, key b ≤ key y := by
  intro l
  induction l with
  | nil =>
    intro a b h
    simp at h
    subst h
    exact ⟨Or.inl rfl, le_refl _, by simp⟩
  | cons x xs ih =>
    intro a b h
    simp only [List.foldl_cons, rust_min_step] at h
    by_cases hx : key x < key a
    · rw [if_pos hx] at h
      obtain ⟨hmem, hle, hall⟩ := ih x b h
      refine ⟨?_, ?_, ?_⟩
      · rcases hmem with rfl | hm
        · exact Or.inr (List.mem_cons_self _ _)
        · exact Or.inr (List.mem_cons_of_mem _ hm)
      · exact le_trans hle (le_of_lt hx)
      · intro y hy
        rcases List.mem_cons.mp hy with rfl | hm
        · exact hle
        · exact hall y hm
    · rw [if_neg hx] at h
      obtain ⟨hmem, hle, hall⟩ := ih a b h
      refine ⟨?_, ?_, ?_⟩
      · rcases hmem with rfl | hm
        · exact Or.inl rfl
        · exact Or.inr (List.mem_cons_of_mem x hm)
      · exact hle
      · intro y hy
        rcases List.mem_cons.mp hy with rfl | hm
        · exact le_trans hle (le_of_not_lt hx)
        · exact hall y hm

theorem rust_min_by_key_spec {α : Type} (key : α → Nat) (l : List α) (b : α)
    (h : rust_min_by_key key l = some b) : b ∈ l ∧ ∀ y ∈ l, key b ≤ key y := by
  cases l with
  | nil => simp [rust_min_by_key] at h
  | cons x xs =>
    have h2 : xs.foldl (rust_min_step key) (some x) = some b := h
    obtain ⟨hmem, _, hall⟩ := min_fold_spec key xs x b h2
    refine ⟨?_, ?_⟩
    · rcases hmem with rfl | hm
      · exact List.mem_cons_self _ _
      · exact List.mem_cons_of_mem _ hm
    · intro y hy
      rcases List.mem_cons.mp hy with rfl | hm
      · exact (min_fold_spec key xs _ b h2).2.1
      · exact hall y hm

theorem rust_min_by_key_none {α : Type} (key : α → Nat) (l : List α) :
    rust_min_by_key key l = none ↔ l = [] := by
  cases l with
  | nil => simp [rust_min_by_key]
  | cons x xs =>
    simp only [rust_min_by_key, List.foldl_cons, rust_min_step]
    constructor
    · intro h
      exfalso
      obtain ⟨b, hb⟩ : ∃ b, xs.foldl (rust_min_step key) (some x) = some b := by
        clear h
        induction xs generalizing x with
        | nil => exact ⟨x, rfl⟩
        | cons z zs ih =>
          simp only [List.foldl_cons, rust_min_step]
          by_cases hz : key z < key x
          · rw [if_pos hz]; exact ih z
          · rw [if_neg hz]; exact ih x
      rw [hb] at h
      cases h
    · intro h
      cases h

/-- The Valiant loop only returns a set on which the predicate is false. -/
theorem valiant_loop_ok_pred_false (partitions : List EdgeSet)
    (f : List Node → Bool) :
    ∀ (fuel : Nat) (chosen : List Nat) (s s2 : List Node),
      valiant_loop partitions f fuel chosen s = .ok s2 → f s2 = false := by
  intro fuel
  induction fuel with
  | zero =>
    intro chosen s s2 h
    simp [valiant_loop] at h
  | succ n ih =>
    intro chosen s s2 h
    simp only [valiant_loop] at h
    by_cases hf : f s = true
    · rw [if_pos hf] at h
      cases hfn : find_next partitions chosen with
      | some ip =>
        obtain ⟨i, part⟩ := ip
        rw [hfn] at h
        exact ih _ _ _ h
      | none =>
        rw [hfn] at h
        cases h
    · rw [if_neg hf] at h
      cases h
      simpa using hf

/-- C1: for every graph, when `valiant_reduce` returns normally with
target ValiantDepth(d) the returned set S satisfies depth(G - S) ≤ d,
and with target ValiantSize(s) it satisfies |S| ≥ s (the loop predicates
being depth(G - S) > d and |S| < s respectively). -/
theorem valiant_reduce_meets_target :
    (∀ (g : Graph) (d fuel : Nat) (s : List Node),
        valiant_reduce g (.ValiantDepth d) fuel = .ok s →
        g.depth_exclude s ≤ d) ∧
    (∀ (g : Graph) (sz fuel : Nat) (s : List Node),
        valiant_reduce g (.ValiantSize sz) fuel = .ok s → sz ≤ s.length) := by
  constructor
  · intro g d fuel s h
    simp only [valiant_reduce, valiant_reduce_main] at h
    have h2 := valiant_loop_ok_pred_false (valiant_partitions g) _ fuel [] [] s h
    simp only [decide_eq_false_iff_not, not_lt] at h2
    exact h2
  · intro g sz fuel s h
    simp only [valiant_reduce, valiant_reduce_main] at h
    have h2 := valiant_loop_ok_pred_false (valiant_partitions g) _ fuel [] [] s h
    simp only [decide_eq_false_iff_not, not_lt] at h2
    exact h2

/-- Witness for C1 at the repo's 8-node test graph (scenarios S1/S2). -/
theorem valiant_reduce_meets_target_witness :
    valiant_reduce ⟨[[], [0], [1, 0], [2], [3, 2], [4], [5, 4], [6]]⟩
        (.ValiantDepth 2) 10 = .ok [3, 2, 0, 4, 6] ∧
    (⟨[[], [0], [1, 0], [2], [3, 2], [4], [5, 4], [6]]⟩ : Graph).depth_exclude
        [3, 2, 0, 4, 6] ≤ 2 ∧
    valiant_reduce ⟨[[], [0], [1, 0], [2], [3, 2], [4], [5, 4], [6]]⟩
        (.ValiantSize 3) 10 = .ok [3, 2, 0, 4, 6] ∧
    3 ≤ ([3, 2, 0, 4, 6] : List Node).length :=
  ⟨by decide,
   valiant_reduce_meets_target.1 ⟨[[], [0], [1, 0], [2], [3, 2], [4], [5, 4], [6]]⟩
     2 10 [3, 2, 0, 4, 6] (by decide),
   by decide,
   valiant_reduce_meets_target.2 ⟨[[], [0], [1, 0], [2], [3, 2], [4], [5, 4], [6]]⟩
     3 10 [3, 2, 0, 4, 6] (by decide)⟩

/-- C10: when the termination predicate is already false on entry, the
main Valiant and Greedy loops return the empty exclusion set at once:
stated for the public depth/size variants, and for the raw loops with
arbitrary partitions / parameters to express that no partition or
removal candidate is consulted. -/
theorem reduce_empty_when_target_met :
    (∀ (g : Graph) (d fuel : Nat), g.depth_exclude [] ≤ d →
        valiant_reduce g (.ValiantDepth d) (fuel + 1) = .ok []) ∧
    (∀ (g : Graph) (fuel : Nat),
        valiant_reduce g (.ValiantSize 0) (fuel + 1) = .ok []) ∧
    (∀ (g : Graph) (d fuel : Nat) (p : GreedyParams), g.depth_exclude [] ≤ d →
        greedy_reduce g (.GreedyDepth d p) (fuel + 1) = .ok []) ∧
    (∀ (g : Graph) (fuel : Nat) (p : GreedyParams),
        greedy_reduce g (.GreedySize 0 p) (fuel + 1) = .ok []) ∧
    (∀ (partitions : List EdgeSet) (f : List Node → Bool) (fuel : Nat),
        f [] = false → valiant_loop partitions f (fuel + 1) [] [] = .ok []) ∧
    (∀ (g : Graph) (p : GreedyParams) (f : List Node → Graph → Bool)
        (fuel : Nat), f [] g = false →
        greedy_loop g p f (fuel + 1) [] [] = .ok []) := by
  have hv : ∀ (partitions : List EdgeSet) (f : List Node → Bool) (fuel : Nat),
      f [] = false → valiant_loop partitions f (fuel + 1) [] [] = .ok [] := by
    intro partitions f fuel hf
    simp only [valiant_loop]
    rw [if_neg (by simp [hf])]
  have hg : ∀ (g : Graph) (p : GreedyParams) (f : List Node → Graph → Bool)
      (fuel : Nat), f [] g = false →
      greedy_loop g p f (fuel + 1) [] [] = .ok [] := by
    intro g p f fuel hf
    simp only [greedy_loop]
    rw [if_neg (by simp [hf])]
  refine ⟨?_, ?_, ?_, ?_, hv, hg⟩
  · intro g d fuel hd
    simp only [valiant_reduce, valiant_reduce_main]
    exact hv _ _ fuel (by simp [Nat.not_lt.mpr hd])
  · intro g fuel
    simp only [valiant_reduce, valiant_reduce_main]
    exact hv _ _ fuel (by simp)
  · intro g d fuel p hd
    simp only [greedy_reduce, greedy_reduce_main]
    exact hg _ _ _ fuel (by simp [Nat.not_lt.mpr hd])
  · intro g fuel p
    simp only [greedy_reduce, greedy_reduce_main]
    exact hg _ _ _ fuel (by simp)

/-- Witness for C10: generous targets on the repo's test graphs. -/
theorem reduce_empty_when_target_met_witness :
    (⟨[[], [0], [1, 0], [2], [3, 2], [4], [5, 4], [6]]⟩ : Graph).depth_exclude
        [] ≤ 10 ∧
    valiant_reduce ⟨[[], [0], [1, 0], [2], [3, 2], [4], [5, 4], [6]]⟩
        (.ValiantDepth 10) 8 = .ok [] ∧
    valiant_reduce ⟨[[], [0], [1, 0], [2], [3, 2], [4], [5, 4], [6]]⟩
        (.ValiantSize 0) 8 = .ok [] ∧
    greedy_reduce ⟨[[], [0], [1, 0], [2, 1], [3, 2, 0], [4]]⟩
        (.GreedyDepth 9 ⟨1, 0, 2, false, false, false⟩) 8 = .ok [] ∧
    greedy_reduce ⟨[[], [0], [1, 0], [2, 1], [3, 2, 0], [4]]⟩
        (.GreedySize 0 ⟨1, 0, 2, false, false, false⟩) 8 = .ok [] :=
  ⟨by decide,
   reduce_empty_when_target_met.1 ⟨[[], [0], [1, 0], [2], [3, 2], [4], [5, 4], [6]]⟩
     10 7 (by decide),
   reduce_empty_when_target_met.2.1 ⟨[[], [0], [1, 0], [2], [3, 2], [4], [5, 4], [6]]⟩ 7,
   reduce_empty_when_target_met.2.2.1 ⟨[[], [0], [1, 0], [2, 1], [3, 2, 0], [4]]⟩
     9 7 ⟨1, 0, 2, false, false, false⟩ (by decide),
   reduce_empty_when_target_met.2.2.2.1 ⟨[[], [0], [1, 0], [2, 1], [3, 2, 0], [4]]⟩
     7 ⟨1, 0, 2, false, false, false⟩⟩

/-- Full characterization of the target-enumeration loop, generalized
over the accumulator. -/
theorem targets_loop_aux (i e : ℚ) :
    ∀ (fuel : Nat) (t : ℚ) (acc L : List ℚ),
      targets_loop i e fuel t acc = some L →
      ∃ M, L = acc ++ M ∧ M.head? = some t ∧
        (∀ k, k < M.length → M.getD k 0 = t + k * i) ∧
        (∀ k, 0 < k → k < M.length → M.getD k 0 < e) ∧
        e ≤ t + M.length * i := by
  intro fuel
  induction fuel with
  | zero =>
    intro t acc L h
    simp [targets_loop] at h
  | succ n ih =>
    intro t acc L h
    simp only [targets_loop] at h
    by_cases hc : e ≤ t + i
    · rw [if_pos (by simpa using hc)] at h
      refine ⟨[t], by simpa using h.symm, rfl, ?_, ?_, by simpa using hc⟩
      · intro k hk
        have hk0 : k = 0 := by simpa [Nat.lt_one_iff] using hk
        subst hk0
        simp
      · intro k hk hk2
        simp only [List.length_singleton] at hk2
        omega
    · rw [if_neg (by simpa using hc)] at h
      obtain ⟨M, hL, hhead, hval, hbound, hend⟩ := ih (t + i) (acc ++ [t]) L h
      refine ⟨t :: M, by simpa using hL, rfl, ?_, ?_, ?_⟩
      · intro k hk
        cases k with
        | zero => simp
        | succ m =>
          have hm := hval m (by simpa using hk)
          simp only [List.getD_cons_succ, hm]
          push_cast
          ring
      · intro k hk hk2
        cases k with
        | zero => omega
        | succ m =>
          cases m with
          | zero =>
            have h0 : M.getD 0 0 = t + i := by
              cases M with
              | nil => simp at hhead
              | cons a M2 =>
                have ha : a = t + i := by simpa using hhead
                simp [ha]
            calc (t :: M).getD 1 0 = M.getD 0 0 := by simp
              _ = t + i := h0
              _ < e := lt_of_not_le hc
          | succ m2 =>
            have hb := hbound (m2 + 1) (by omega) (by simpa using hk2)
            simpa using hb
      · have harith : (t + i) + M.length * i = t + (M.length + 1) * i := by ring
        have := hend
        rw [harith] at this
        simpa using this

/-- C6 (amended): the sweep emits the arithmetic progression
start, start+i, start+2i, …; the FIRST value is pushed before any check,
each later value is < end, and enumeration stops as soon as the running
value reaches or exceeds end. -/
theorem targets_enumeration_spec :
    ∀ (i e : ℚ) (fuel : Nat) (st : ℚ) (L : List ℚ),
      targets_loop i e fuel st [] = some L →
      L.head? = some st ∧
      (∀ k, k < L.length → L.getD k 0 = st + k * i) ∧
      (∀ k, 0 < k → k < L.length → L.getD k 0 < e) ∧
      e ≤ st + L.length * i := by
  intro i e fuel st L h
  obtain ⟨M, hL, hhead, hval, hbound, hend⟩ := targets_loop_aux i e fuel st [] L h
  simp only [List.nil_append] at hL
  subst hL
  exact ⟨hhead, hval, hbound, hend⟩

/-- Witness for the amended C6: a strictly increasing sweep. -/
theorem targets_enumeration_spec_witness :
    targets_loop (1/10 : ℚ) (1/2) 20 (1/5) []
        = some [1/5, 3/10, 2/5] ∧
    ([(1/5 : ℚ), 3/10, 2/5].head? = some (1/5) ∧
      (∀ k, k < ([(1/5 : ℚ), 3/10, 2/5]).length →
        ([(1/5 : ℚ), 3/10, 2/5]).getD k 0 = 1/5 + k * (1/10)) ∧
      (∀ k, 0 < k → k < ([(1/5 : ℚ), 3/10, 2/5]).length →
        ([(1/5 : ℚ), 3/10, 2/5]).getD k 0 < 1/2) ∧
      (1/2 : ℚ) ≤ 1/5 + ([(1/5 : ℚ), 3/10, 2/5]).length * (1/10)) :=
  ⟨by norm_num [targets_loop],
   targets_enumeration_spec (1/10) (1/2) 20 (1/5) [1/5, 3/10, 2/5]
     (by norm_num [targets_loop])⟩

/-- C6 counterexample: with start = end = 3/10 and positive interval
1/10 (exactly the range `baseline` in main.rs builds) the endpoint
itself is emitted, refuting "every emitted value is < end" and "the
endpoint e itself is never emitted". -/
theorem targets_emits_endpoint_counterexample :
    (0 : ℚ) < 1/10 ∧
    profile_targets ⟨3/10, 1/10, 3/10⟩ 5 = some [3/10] ∧
    (3/10 : ℚ) ∈ [(3/10 : ℚ)] ∧ ¬ ((3/10 : ℚ) < 3/10) := by
  refine ⟨by norm_num, by norm_num [profile_targets, targets_loop], by simp,
    by norm_num⟩

/-- C5: each iteration of the `valiant_reduce` outer loop selects, among
the non-empty partitions not yet chosen, one of smallest size (the first
such, by Rust's `min_by_key`), marks its index chosen — so no partition
is ever selected twice — and inserts into S the parent endpoint of every
edge of that partition. -/
theorem valiant_step_selects_smallest :
    (∀ (partitions : List EdgeSet) (chosen : List Nat) (i : Nat)
        (part : EdgeSet),
        find_next partitions chosen = some (i, part) →
        i < partitions.length ∧ partitions.getD i [] = part ∧
        0 < part.length ∧ chosen.contains i = false ∧
        (∀ j, j < partitions.length → 0 < (partitions.getD j []).length →
          chosen.contains j = false →
          part.length ≤ (partitions.getD j []).length)) ∧
    (∀ (partitions : List EdgeSet) (f : List Node → Bool) (fuel : Nat)
        (chosen : List Nat) (s : List Node) (i : Nat) (part : EdgeSet),
        f s = true → find_next partitions chosen = some (i, part) →
        valiant_loop partitions f (fuel + 1) chosen s =
          valiant_loop partitions f fuel (chosen ++ [i])
            (part.foldl (fun acc e => insertNode acc e.parent) s)) ∧
    (∀ (part : EdgeSet) (s : List Node) (v : Node),
        v ∈ part.foldl (fun acc e => insertNode acc e.parent) s ↔
          v ∈ s ∨ ∃ e ∈ part, e.parent = v) := by
  refine ⟨?_, ?_, ?_⟩
  · intro partitions chosen i part h
    obtain ⟨hmem, hmin⟩ := rust_min_by_key_spec _ _ _ h
    rw [List.mem_filter] at hmem
    obtain ⟨hmem2, hnotchosen⟩ := hmem
    rw [List.mem_filter] at hmem2
    obtain ⟨henum, hpos⟩ := hmem2
    rw [List.mk_mem_enum_iff_getElem?] at henum
    have hilt : i < partitions.length := (List.getElem?_eq_some.mp henum).1
    have hgetD : partitions.getD i [] = part := by
      rw [List.getD_eq_getElem _ _ hilt]
      exact (List.getElem?_eq_some.mp henum).2
    refine ⟨hilt, hgetD, by simpa using hpos, by simpa using hnotchosen, ?_⟩
    intro j hj hjpos hjnot
    have hjenum : (j, partitions.getD j []) ∈ partitions.enum := by
      rw [List.mk_mem_enum_iff_getElem?, List.getElem?_eq_getElem hj,
        List.getD_eq_getElem _ _ hj]
    have hjfiltered : (j, partitions.getD j []) ∈
        (partitions.enum.filter (fun iv => iv.2.length > 0)).filter
          (fun iv => !chosen.contains iv.1) := by
      rw [List.mem_filter, List.mem_filter]
      exact ⟨⟨hjenum, by simpa using hjpos⟩, by simpa using hjnot⟩
    exact hmin _ hjfiltered
  · intro partitions f fuel chosen s i part hf hfn
    simp only [valiant_loop]
    rw [if_pos hf, hfn]
  · exact foldl_insertNode_parent_mem

/-- Witness for C5: the first step on the repo's 8-node test graph picks
the bit-2 partition (the unique smallest). -/
theorem valiant_step_selects_smallest_witness :
    find_next (valiant_partitions ⟨[[], [0], [1, 0], [2], [3, 2], [4], [5, 4], [6]]⟩) []
        = some (2, [⟨3, 4⟩, ⟨2, 4⟩]) ∧
    (2 < (valiant_partitions ⟨[[], [0], [1, 0], [2], [3, 2], [4], [5, 4], [6]]⟩).length ∧
      (valiant_partitions ⟨[[], [0], [1, 0], [2], [3, 2], [4], [5, 4], [6]]⟩).getD 2 []
        = [⟨3, 4⟩, ⟨2, 4⟩] ∧
      0 < ([⟨3, 4⟩, ⟨2, 4⟩] : EdgeSet).length ∧
      ([] : List Nat).contains 2 = false ∧
      (∀ j, j < (valiant_partitions ⟨[[], [0], [1, 0], [2], [3, 2], [4], [5, 4], [6]]⟩).length →
        0 < ((valiant_partitions ⟨[[], [0], [1, 0], [2], [3, 2], [4], [5, 4], [6]]⟩).getD j []).length →
        ([] : List Nat).contains j = false →
        ([⟨3, 4⟩, ⟨2, 4⟩] : EdgeSet).length ≤
          ((valiant_partitions ⟨[[], [0], [1, 0], [2], [3, 2], [4], [5, 4], [6]]⟩).getD j []).length)) :=
  ⟨by decide,
   valiant_step_selects_smallest.1
     (valiant_partitions ⟨[[], [0], [1, 0], [2], [3, 2], [4], [5, 4], [6]]⟩) [] 2
     [⟨3, 4⟩, ⟨2, 4⟩] (by decide)⟩

theorem stable_insert_perm {α : Type} (before : α → α → Bool) (x : α) :
    ∀ l : List α, (stable_insert before x l).Perm (x :: l) := by
  intro l
  induction l with
  | nil => simp [stable_insert]
  | cons y ys ih =>
    simp only [stable_insert]
    by_cases h : before y x = true
    · rw [if_pos h]
      exact (ih.cons y).trans (List.Perm.swap x y ys)
    · rw [if_neg h]

theorem stable_sort_fold_perm {α : Type} (before : α → α → Bool) :
    ∀ (l acc : List α),
      (l.foldl (fun acc x => stable_insert before x acc) acc).Perm (acc ++ l) := by
  intro l
  induction l with
  | nil => simp
  | cons x xs ih =>
    intro acc
    simp only [List.foldl_cons]
    refine (ih (stable_insert before x acc)).trans ?_
    refine (List.Perm.append_right xs (stable_insert_perm before x acc)).trans ?_
    have : (x :: acc) ++ xs = x :: (acc ++ xs) := rfl
    rw [this]
    exact (List.perm_middle).symm

theorem stable_sort_perm {α : Type} (before : α → α → Bool) (l : List α) :
    (stable_sort before l).Perm l := by
  simpa using stable_sort_fold_perm before l []

/-- Sortedness of the stable insertion sort, for any total transitive
boolean relation. -/
theorem stable_insert_pairwise {α : Type} (le : α → α → Bool)
    (htot : ∀ a b, le a b = false → le b a = true)
    (htrans : ∀ a b c, le a b = true → le b c = true → le a c = true)
    (x : α) :
    ∀ l : List α, l.Pairwise (fun a b => le a b = true) →
      (stable_insert le x l).Pairwise (fun a b => le a b = true) := by
  intro l
  induction l with
  | nil =>
    intro _
    simp [stable_insert]
  | cons y ys ih =>
    intro hp
    rw [List.pairwise_cons] at hp
    obtain ⟨hy, hys⟩ := hp
    simp only [stable_insert]
    by_cases h : le y x = true
    · rw [if_pos h]
      rw [List.pairwise_cons]
      refine ⟨?_, ih hys⟩
      intro z hz
      have hz2 : z ∈ x :: ys := (stable_insert_perm le x ys).mem_iff.mp hz
      rcases List.mem_cons.mp hz2 with rfl | hm
      · exact h
      · exact hy z hm
    · rw [if_neg h]
      have hxy : le x y = true := htot y x (by simpa using h)
      rw [List.pairwise_cons]
      refine ⟨?_, List.Pairwise.cons hy hys⟩
      intro z hz
      rcases List.mem_cons.mp hz with rfl | hm
      · exact hxy
      · exact htrans x y z hxy (hy z hm)

theorem stable_sort_pairwise {α : Type} (le : α → α → Bool)
    (htot : ∀ a b, le a b = false → le b a = true)
    (htrans : ∀ a b c, le a b = true → le b c = true → le a c = true) :
    ∀ (l acc : List α), acc.Pairwise (fun a b => le a b = true) →
      (l.foldl (fun acc x => stable_insert le x acc) acc).Pairwise
        (fun a b => le a b = true) := by
  intro l
  induction l with
  | nil => intro acc h; simpa using h
  | cons x xs ih =>
    intro acc h
    simp only [List.foldl_cons]
    exact ih _ (stable_insert_pairwise le htot htrans x acc h)

/-- The strengthened (stability-aware) order produced by the descending
count sort on an input whose node ids ascend: counts descend, and ties
keep ids ascending. -/
def goodOrder (a b : Pair) : Prop := b.2 < a.2 ∨ (a.2 = b.2 ∧ a.1 < b.1)

theorem stable_insert_good (x : Pair) :
    ∀ acc : List Pair, acc.Pairwise goodOrder → (∀ y ∈ acc, y.1 < x.1) →
      (stable_insert (fun y z => decide (z.2 ≤ y.2)) x acc).Pairwise goodOrder := by
  intro acc
  induction acc with
  | nil =>
    intro _ _
    simp [stable_insert]
  | cons y ys ih =>
    intro hp hid
    rw [List.pairwise_cons] at hp
    obtain ⟨hy, hys⟩ := hp
    simp only [stable_insert]
    by_cases h : x.2 ≤ y.2
    · rw [if_pos (by simpa using h)]
      rw [List.pairwise_cons]
      refine ⟨?_, ih hys (fun z hz => hid z (List.mem_cons_of_mem y hz))⟩
      intro z hz
      have hz2 : z ∈ x :: ys :=
        (stable_insert_perm (fun y z => decide (z.2 ≤ y.2)) x ys).mem_iff.mp hz
      rcases List.mem_cons.mp hz2 with rfl | hm
      · rcases lt_or_eq_of_le h with hlt | heq
        · exact Or.inl hlt
        · exact Or.inr ⟨heq.symm, hid y (List.mem_cons_self y ys)⟩
      · exact hy z hm
    · rw [if_neg (by simpa using h)]
      have hyx : y.2 < x.2 := lt_of_not_le h
      rw [List.pairwise_cons]
      refine ⟨?_, List.Pairwise.cons hy hys⟩
      intro z hz
      rcases List.mem_cons.mp hz with rfl | hm
      · exact Or.inl hyx
      · rcases hy z hm with hlt | ⟨heq, _⟩
        · exact Or.inl (lt_trans hlt hyx)
        · exact Or.inl (heq ▸ hyx)

theorem sort_desc_fold_good :
    ∀ (l acc : List Pair), l.Pairwise (fun a b => a.1 < b.1) →
      acc.Pairwise goodOrder → (∀ x ∈ l, ∀ y ∈ acc, y.1 < x.1) →
      (l.foldl (fun acc x => stable_insert (fun y z => decide (z.2 ≤ y.2)) x acc)
        acc).Pairwise goodOrder := by
  intro l
  induction l with
  | nil => intro acc _ h _; simpa using h
  | cons x xs ih =>
    intro acc hl hacc hids
    rw [List.pairwise_cons] at hl
    obtain ⟨hx, hxs⟩ := hl
    simp only [List.foldl_cons]
    refine ih _ hxs
      (stable_insert_good x acc hacc
        (fun y hy => hids x (List.mem_cons_self x xs) y hy)) ?_
    intro z hz y hy
    have hy2 : y ∈ x :: acc :=
      (stable_insert_perm (fun y z => decide (z.2 ≤ y.2)) x acc).mem_iff.mp hy
    rcases List.mem_cons.mp hy2 with rfl | hm
    · exact hx z hz
    · exact hids z (List.mem_cons_of_mem x hz) y hm

theorem sort_pairs_desc_good (l : List Pair)
    (h : l.Pairwise (fun a b => a.1 < b.1)) :
    (sort_pairs_desc l).Pairwise goodOrder := by
  have := sort_desc_fold_good l [] h (by simp) (by simp)
  simpa [sort_pairs_desc, stable_sort] using this

/-- Both count modes produce id-ascending raw lists, hence
count-descending output with ties in ascending id order. -/
theorem count_paths_good (g : Graph) (s : List Node) (p : GreedyParams) :
    (count_paths g s p).Pairwise goodOrder := by
  have hbase : ∀ (f : Nat → Nat),
      (((List.range g.size).filter (fun v => !s.contains v)).map
        (fun v => ((v, f v) : Pair))).Pairwise (fun a b => a.1 < b.1) := by
    intro f
    rw [List.pairwise_map]
    exact ((List.pairwise_lt_range g.size).sublist (List.filter_sublist _)).imp
      (fun h => h)
  unfold count_paths count_paths_path count_paths_degree
  by_cases hd : p.use_degree = true
  · rw [if_pos hd]
    exact sort_pairs_desc_good _ (hbase _)
  · rw [if_neg hd]
    unfold incidents_from
    exact sort_pairs_desc_good _ (hbase _)

/-- Rust's `max_by_key` fold over a count-descending, tie-id-ascending
list lands on the LAST element attaining the maximal count: the tied
element with the greatest node id. -/
theorem max_fold_good :
    ∀ (l : List Pair) (a : Pair), (a :: l).Pairwise goodOrder →
      ∃ m, l.foldl (rust_max_step (fun pr => pr.2)) (some a) = some m ∧
        m ∈ a :: l ∧ m.2 = a.2 ∧ (∀ y ∈ a :: l, y.2 = m.2 → y.1 ≤ m.1) := by
  intro l
  induction l with
  | nil =>
    intro a _
    refine ⟨a, rfl, List.mem_cons_self a [], rfl, ?_⟩
    intro y hy _
    rcases List.mem_cons.mp hy with rfl | hm
    · exact le_refl _
    · simp at hm
  | cons x xs ih =>
    intro a hp
    rw [List.pairwise_cons] at hp
    obtain ⟨ha, hp2⟩ := hp
    simp only [List.foldl_cons, rust_max_step]
    by_cases hax : a.2 ≤ x.2
    · rw [if_pos hax]
      have hgood : goodOrder a x := ha x (List.mem_cons_self x xs)
      have haeq : a.2 = x.2 ∧ a.1 < x.1 := by
        rcases hgood with hlt | hpair
        · omega
        · exact hpair
      obtain ⟨m, hm1, hm2, hm3, hm4⟩ := ih x hp2
      refine ⟨m, hm1, List.mem_cons_of_mem a hm2, by rw [hm3, ← haeq.1], ?_⟩
      intro y hy hyeq
      rcases List.mem_cons.mp hy with rfl | hm
      · have hx1 : x.1 ≤ m.1 :=
          hm4 x (List.mem_cons_self x xs) (by rw [← hm3])
        exact le_trans (le_of_lt haeq.2) hx1
      · exact hm4 y hm hyeq
    · rw [if_neg hax]
      have hxa : x.2 < a.2 := lt_of_not_le hax
      have hp3 : (a :: xs).Pairwise goodOrder := by
        rw [List.pairwise_cons]
        exact ⟨fun y hy => ha y (List.mem_cons_of_mem x hy),
          (List.pairwise_cons.mp hp2).2⟩
      obtain ⟨m, hm1, hm2, hm3, hm4⟩ := ih a hp3
      refine ⟨m, hm1, ?_, hm3, ?_⟩
      · rcases List.mem_cons.mp hm2 with rfl | hm
        · exact List.mem_cons_self _ _
        · exact List.mem_cons_of_mem _ (List.mem_cons_of_mem _ hm)
      · intro y hy hyeq
        rcases List.mem_cons.mp hy with rfl | hm
        · exact hm4 y (List.mem_cons_self _ _) hyeq
        · rcases List.mem_cons.mp hm with rfl | hm2'
          · exfalso
            rw [hm3] at hyeq
            omega
          · exact hm4 y (List.mem_cons_of_mem a hm2') hyeq

theorem rust_max_by_key_good (l : List Pair) (hp : l.Pairwise goodOrder)
    (hne : l ≠ []) :
    ∃ m, rust_max_by_key (fun pr => pr.2) l = some m ∧ m ∈ l ∧
      (∀ y ∈ l, y.2 ≤ m.2) ∧ (∀ y ∈ l, y.2 = m.2 → y.1 ≤ m.1) := by
  cases l with
  | nil => exact absurd rfl hne
  | cons a rest =>
    obtain ⟨m, h1, h2, h3, h4⟩ := max_fold_good rest a hp
    have h1b : rust_max_by_key (fun pr => pr.2) (a :: rest) = some m := h1
    refine ⟨m, h1b, h2, ?_, h4⟩
    intro y hy
    rcases List.mem_cons.mp hy with rfl | hm
    · rw [h3]
    · rcases (List.pairwise_cons.mp hp).1 y hm with hlt | ⟨heq, _⟩
      · rw [h3]; exact le_of_lt hlt
      · rw [h3, heq]

/-- C9: in `append_removal` with radius = 0 the node inserted into S is
the one picked by `max_by_key` over the sorted incident list: it attains
the maximal incident count, and among all tied nodes it has the GREATEST
node id (the list is count-descending with ties in ascending id order,
and Rust's `max_by_key` returns the last maximal element). -/
theorem append_removal_radius0_takes_greatest_tied :
    ∀ (g : Graph) (s ir : List Node) (p : GreedyParams),
      p.radius = 0 → count_paths g s p ≠ [] →
      ∃ m : Pair, m ∈ count_paths g s p ∧
        append_removal g s ir (count_paths g s p) p =
          .ok (insertNode s m.1, ir) ∧
        (∀ y ∈ count_paths g s p, y.2 ≤ m.2) ∧
        (∀ y ∈ count_paths g s p, y.2 = m.2 → y.1 ≤ m.1) := by
  intro g s ir p hr hne
  obtain ⟨m, h1, h2, h3, h4⟩ :=
    rust_max_by_key_good _ (count_paths_good g s p) hne
  refine ⟨m, h2, ?_, h3, h4⟩
  unfold append_removal
  rw [if_pos hr, h1]

/-- Witness for C9 on the repo's greedy test graph: nodes 2 and 4 tie at
count 7 and node 4 (the greater id) is the one inserted, matching the
repo's own `test_append_removal_node`. -/
theorem append_removal_radius0_witness :
    (⟨3, 0, 2, false, false, false⟩ : GreedyParams).radius = 0 ∧
    count_paths ⟨[[], [0], [1, 0], [2, 1], [3, 2, 0], [4]]⟩ []
        ⟨3, 0, 2, false, false, false⟩ ≠ [] ∧
    (∃ m : Pair,
      m ∈ count_paths ⟨[[], [0], [1, 0], [2, 1], [3, 2, 0], [4]]⟩ []
          ⟨3, 0, 2, false, false, false⟩ ∧
      append_removal ⟨[[], [0], [1, 0], [2, 1], [3, 2, 0], [4]]⟩ [] []
          (count_paths ⟨[[], [0], [1, 0], [2, 1], [3, 2, 0], [4]]⟩ []
            ⟨3, 0, 2, false, false, false⟩)
          ⟨3, 0, 2, false, false, false⟩ =
        .ok (insertNode [] m.1, []) ∧
      (∀ y ∈ count_paths ⟨[[], [0], [1, 0], [2, 1], [3, 2, 0], [4]]⟩ []
          ⟨3, 0, 2, false, false, false⟩, y.2 ≤ m.2) ∧
      (∀ y ∈ count_paths ⟨[[], [0], [1, 0], [2, 1], [3, 2, 0], [4]]⟩ []
          ⟨3, 0, 2, false, false, false⟩, y.2 = m.2 → y.1 ≤ m.1)) :=
  ⟨rfl, by decide,
   append_removal_radius0_takes_greatest_tied
     ⟨[[], [0], [1, 0], [2, 1], [3, 2, 0], [4]]⟩ [] []
     ⟨3, 0, 2, false, false, false⟩ rfl (by decide)⟩

/-- Well-formedness from the spec's data model: every parent id is
strictly below its node (hence below the graph size). -/
def Graph.wf (g : Graph) : Bool :=
  (List.range g.size).all (fun v => (g.parentsOf v).all (fun p => p < v))

theorem getD_set_self (l : List Nat) (i v : Nat) (h : i < l.length) :
    (l.set i v).getD i 0 = v := by
  simp [List.getD, List.getElem?_set, h]

theorem getD_set_other (l : List Nat) (i j v : Nat) (h : i ≠ j) :
    (l.set i v).getD j 0 = l.getD j 0 := by
  simp [List.getD, List.getElem?_set, h]

theorem mem_edges (g : Graph) (e : Edge) :
    e ∈ g.edges ↔ e.child < g.size ∧ e.parent ∈ g.parentsOf e.child := by
  unfold Graph.edges
  rw [List.mem_flatMap]
  constructor
  · rintro ⟨c, hc, hm⟩
    rw [List.mem_map] at hm
    obtain ⟨p, hp, heq⟩ := hm
    cases heq
    exact ⟨List.mem_range.mp hc, hp⟩
  · rintro ⟨h1, h2⟩
    exact ⟨e.child, List.mem_range.mpr h1, List.mem_map.mpr ⟨e.parent, h2, rfl⟩⟩

/-- Net effect at one cell of the accumulate-over-edges loop with
wrapping u64 additions: the cell receives the (wrapped) sum of the
contributions of the edges that target it (edges whose parent is in S
are skipped). -/
theorem fold_set_add_mod (val : Edge → Nat) (skip : Edge → Bool)
    (proj : Edge → Nat) :
    ∀ (edges : List Edge) (acc : List Nat) (c : Nat),
      (∀ e ∈ edges, skip e = false → proj e < acc.length) →
      (∀ i, acc.getD i 0 < U64) →
      (edges.foldl
        (fun acc e =>
          if skip e then acc
          else acc.set (proj e) ((acc.getD (proj e) 0 + val e) % U64)) acc).getD
          c 0
        = (acc.getD c 0 +
            ((edges.filter (fun e => !skip e && proj e == c)).map val).sum) %
            U64 := by
  intro edges
  induction edges with
  | nil =>
    intro acc c _ hbound
    simp only [List.foldl_nil, List.filter_nil, List.map_nil, List.sum_nil,
      Nat.add_zero]
    exact (Nat.mod_eq_of_lt (hbound c)).symm
  | cons e rest ih =>
    intro acc c hlen hbound
    simp only [List.foldl_cons]
    by_cases hc : skip e = true
    · rw [if_pos hc]
      rw [ih _ c (fun e2 he2 hc2 => hlen e2 (List.mem_cons_of_mem e he2) hc2)
        hbound]
      rw [List.filter_cons_of_neg (by simp [hc])]
    · rw [if_neg hc]
      have hskip : skip e = false := by simpa using hc
      have hproj : proj e < acc.length :=
        hlen e (List.mem_cons_self e rest) hskip
      have hlen2 : ∀ e2 ∈ rest, skip e2 = false →
          proj e2 < (acc.set (proj e)
            ((acc.getD (proj e) 0 + val e) % U64)).length := by
        intro e2 he2 hc2
        rw [List.length_set]
        exact hlen e2 (List.mem_cons_of_mem e he2) hc2
      have hbound2 : ∀ i,
          (acc.set (proj e) ((acc.getD (proj e) 0 + val e) % U64)).getD i 0 <
            U64 := by
        intro i
        by_cases hip : proj e = i
        · subst hip
          rw [getD_set_self _ _ _ hproj]
          exact Nat.mod_lt _ (by norm_num [U64])
        · rw [getD_set_other _ _ _ _ hip]
          exact hbound i
      rw [ih _ c hlen2 hbound2]
      by_cases hpc : proj e = c
      · subst hpc
        rw [getD_set_self _ _ _ hproj]
        rw [List.filter_cons_of_pos (by simp [hskip])]
        simp only [List.map_cons, List.sum_cons]
        rw [Nat.mod_add_mod]
        ring_nf
      · rw [getD_set_other _ _ _ _ hpc]
        rw [List.filter_cons_of_neg (by simp [hskip, hpc])]

/-- Same fold without the modulus (the exact reference recurrence). -/
theorem fold_set_add_exact (val : Edge → Nat) (skip : Edge → Bool)
    (proj : Edge → Nat) :
    ∀ (edges : List Edge) (acc : List Nat) (c : Nat),
      (∀ e ∈ edges, skip e = false → proj e < acc.length) →
      (edges.foldl
        (fun acc e =>
          if skip e then acc
          else acc.set (proj e) (acc.getD (proj e) 0 + val e)) acc).getD c 0
        = acc.getD c 0 +
            ((edges.filter (fun e => !skip e && proj e == c)).map val).sum := by
  intro edges
  induction edges with
  | nil =>
    intro acc c _
    simp
  | cons e rest ih =>
    intro acc c hlen
    simp only [List.foldl_cons]
    by_cases hc : skip e = true
    · rw [if_pos hc]
      rw [ih _ c (fun e2 he2 hc2 => hlen e2 (List.mem_cons_of_mem e he2) hc2)]
      rw [List.filter_cons_of_neg (by simp [hc])]
    · rw [if_neg hc]
      have hskip : skip e = false := by simpa using hc
      have hproj : proj e < acc.length :=
        hlen e (List.mem_cons_self e rest) hskip
      have hlen2 : ∀ e2 ∈ rest, skip e2 = false →
          proj e2 < (acc.set (proj e) (acc.getD (proj e) 0 + val e)).length := by
        intro e2 he2 hc2
        rw [List.length_set]
        exact hlen e2 (List.mem_cons_of_mem e he2) hc2
      rw [ih _ c hlen2]
      by_cases hpc : proj e = c
      · subst hpc
        rw [getD_set_self _ _ _ hproj]
        rw [List.filter_cons_of_pos (by simp [hskip])]
        simp only [List.map_cons, List.sum_cons]
        ring_nf
      · rw [getD_set_other _ _ _ _ hpc]
        rw [List.filter_cons_of_neg (by simp [hskip, hpc])]

theorem dp_fold_levels (next : List Nat → List Nat) (l0 : List Nat) :
    ∀ len, (List.range len).foldl (fun acc _ => next acc.headI :: acc) [l0]
      = ((List.range (len + 1)).map (fun d => next^[d] l0)).reverse := by
  intro len
  induction len with
  | zero => simp
  | succ n ih =>
    rw [List.range_succ, List.foldl_append, ih]
    have hhead : (((List.range (n + 1)).map (fun d => next^[d] l0)).reverse).headI
        = next^[n] l0 := by
      rw [List.range_succ, List.map_append, List.reverse_append]
      simp
    simp only [List.foldl_cons, List.foldl_nil, hhead]
    have hr : List.range (n + 1 + 1) = List.range (n + 1) ++ [n + 1] := by
      simpa using List.range_succ (n + 1)
    rw [hr, List.map_append, List.reverse_append]
    simp [Function.iterate_succ_apply']

theorem dp_table_eq (next : List Nat → List Nat) (l0 : List Nat) (len : Nat) :
    dp_table next l0 len = (List.range (len + 1)).map (fun d => next^[d] l0) := by
  unfold dp_table
  rw [dp_fold_levels]
  exact List.reverse_reverse _

theorem dp_table_getD (next : List Nat → List Nat) (l0 : List Nat) (len d : Nat)
    (h : d ≤ len) : (dp_table next l0 len).getD d [] = next^[d] l0 := by
  rw [dp_table_eq]
  rw [List.getD_eq_getElem _ _ (by simp; omega)]
  rw [List.getElem_map, List.getElem_range]

theorem lvl0_getD (g : Graph) (s : List Node) (v : Nat) :
    (lvl0 g s).getD v 0 =
      if v < g.size then (if s.contains v then 0 else 1) else 0 := by
  unfold lvl0
  by_cases hv : v < g.size
  · rw [if_pos hv, List.getD_eq_getElem _ _ (by simpa using hv)]
    simp
  · rw [if_neg hv, List.getD_eq_default]
    simpa using le_of_not_lt hv

theorem replicate_getD (n v : Nat) : (List.replicate n (0 : Nat)).getD v 0 = 0 := by
  by_cases h : v < n
  · rw [List.getD_eq_getElem _ _ (by simpa using h)]
    simp
  · rw [List.getD_eq_default]
    simpa using le_of_not_lt h

theorem lvl0_bound (g : Graph) (s : List Node) :
    ∀ i, (lvl0 g s).getD i 0 < U64 := by
  intro i
  rw [lvl0_getD]
  split_ifs <;> norm_num [U64]

theorem next_ending_getD (g : Graph) (s : List Node) (prev : List Nat)
    (c : Nat) :
    (next_ending g s prev).getD c 0 =
      (((g.edges.filter (fun e => !s.contains e.parent && e.child == c)).map
        (fun e => prev.getD e.parent 0)).sum) % U64 := by
  unfold next_ending
  rw [fold_set_add_mod (fun e => prev.getD e.parent 0)
    (fun e => s.contains e.parent) (fun e => e.child) g.edges
    (List.replicate g.size 0) c
    (fun e he _ => by
      rw [List.length_replicate]
      exact ((mem_edges g e).mp he).1)
    (fun i => by rw [replicate_getD]; norm_num [U64])]
  rw [replicate_getD, Nat.zero_add]

theorem wf_parent_lt (g : Graph) (hwf : g.wf = true) (e : Edge)
    (he : e ∈ g.edges) : e.parent < e.child ∧ e.parent < g.size := by
  obtain ⟨hc, hp⟩ := (mem_edges g e).mp he
  unfold Graph.wf at hwf
  rw [List.all_eq_true] at hwf
  have h1 := hwf e.child (List.mem_range.mpr hc)
  rw [List.all_eq_true] at h1
  have h2 := h1 e.parent hp
  simp only [decide_eq_true_eq] at h2
  exact ⟨h2, lt_trans h2 hc⟩

theorem next_starting_getD (g : Graph) (hwf : g.wf = true) (s : List Node)
    (prev : List Nat) (c : Nat) :
    (next_starting g s prev).getD c 0 =
      (((g.edges.filter (fun e => !s.contains e.parent && e.parent == c)).map
        (fun e => prev.getD e.child 0)).sum) % U64 := by
  unfold next_starting
  rw [fold_set_add_mod (fun e => prev.getD e.child 0)
    (fun e => s.contains e.parent) (fun e => e.parent) g.edges
    (List.replicate g.size 0) c
    (fun e he _ => by
      rw [List.length_replicate]
      exact (wf_parent_lt g hwf e he).2)
    (fun i => by rw [replicate_getD]; norm_num [U64])]
  rw [replicate_getD, Nat.zero_add]

theorem tget_ending (g : Graph) (s : List Node) (len d : Nat) (hd : d ≤ len)
    (v : Nat) :
    tget (ending_table g s len) v d =
      ((next_ending g s)^[d] (lvl0 g s)).getD v 0 := by
  unfold tget ending_table
  rw [dp_table_getD _ _ _ _ hd]

theorem tget_starting (g : Graph) (s : List Node) (len d : Nat) (hd : d ≤ len)
    (v : Nat) :
    tget (starting_table g s len) v d =
      ((next_starting g s)^[d] (lvl0 g s)).getD v 0 := by
  unfold tget starting_table
  rw [dp_table_getD _ _ _ _ hd]

theorem foldl_add_mod (f : Nat → Nat) :
    ∀ (l : List Nat) (acc : Nat), acc < U64 →
      l.foldl (fun a d => (a + f d) % U64) acc = (acc + (l.map f).sum) % U64 := by
  intro l
  induction l with
  | nil =>
    intro acc h
    simpa using (Nat.mod_eq_of_lt h).symm
  | cons d rest ih =>
    intro acc h
    simp only [List.foldl_cons, List.map_cons, List.sum_cons]
    rw [ih _ (Nat.mod_lt _ (by norm_num [U64])), Nat.mod_add_mod]
    ring_nf

/-- C2: in path mode, `count_paths` computes level-0 rows that are 1
exactly on the nodes outside S, each level-d cell is the (u64) sum of
the level-(d-1) cells over the edges reaching it whose parent is outside
S, the output has exactly one pair per node outside S whose value is the
(usize) sum over d of starting[v][d] * ending[v][len-d], and the output
is sorted by incident count descending with ties broken by lower node
id. -/
theorem count_paths_path_mode_spec :
    ∀ (g : Graph) (s : List Node) (p : GreedyParams),
      g.wf = true → p.use_degree = false →
      (∀ v, v < g.size →
        tget (ending_table g s p.length) v 0 = (if s.contains v then 0 else 1) ∧
        tget (starting_table g s p.length) v 0 =
          (if s.contains v then 0 else 1)) ∧
      (∀ d, 1 ≤ d → d ≤ p.length → ∀ c,
        tget (ending_table g s p.length) c d =
          (((g.edges.filter (fun e => !s.contains e.parent && e.child == c)).map
            (fun e => tget (ending_table g s p.length) e.parent (d - 1))).sum) %
            U64 ∧
        tget (starting_table g s p.length) c d =
          (((g.edges.filter (fun e => !s.contains e.parent && e.parent == c)).map
            (fun e => tget (starting_table g s p.length) e.child (d - 1))).sum) %
            U64) ∧
      (count_paths g s p).Perm
        (((List.range g.size).filter (fun v => !s.contains v)).map
          (fun v => ((v, incident_of (ending_table g s p.length)
            (starting_table g s p.length) p.length v) : Pair))) ∧
      (∀ v, incident_of (ending_table g s p.length)
          (starting_table g s p.length) p.length v =
        (((List.range (p.length + 1)).map
          (fun d => tget (starting_table g s p.length) v d *
            tget (ending_table g s p.length) v (p.length - d) % U64)).sum) %
          U64) ∧
      (count_paths g s p).Pairwise goodOrder := by
  intro g s p hwf hdeg
  refine ⟨?_, ?_, ?_, ?_, count_paths_good g s p⟩
  · intro v hv
    constructor
    · rw [tget_ending g s p.length 0 (Nat.zero_le _) v]
      simp only [Function.iterate_zero_apply]
      rw [lvl0_getD, if_pos hv]
    · rw [tget_starting g s p.length 0 (Nat.zero_le _) v]
      simp only [Function.iterate_zero_apply]
      rw [lvl0_getD, if_pos hv]
  · intro d hd1 hdlen c
    have hsub : d - 1 + 1 = d := by omega
    constructor
    · rw [tget_ending g s p.length d hdlen c]
      have hit : (next_ending g s)^[d] (lvl0 g s) =
          next_ending g s ((next_ending g s)^[d - 1] (lvl0 g s)) := by
        conv_lhs => rw [← hsub]
        rw [Function.iterate_succ_apply']
      rw [hit, next_ending_getD]
      congr 1
      congr 1
      apply List.map_congr_left
      intro e _
      rw [tget_ending g s p.length (d - 1) (by omega) e.parent]
    · rw [tget_starting g s p.length d hdlen c]
      have hit : (next_starting g s)^[d] (lvl0 g s) =
          next_starting g s ((next_starting g s)^[d - 1] (lvl0 g s)) := by
        conv_lhs => rw [← hsub]
        rw [Function.iterate_succ_apply']
      rw [hit, next_starting_getD g hwf]
      congr 1
      congr 1
      apply List.map_congr_left
      intro e _
      rw [tget_starting g s p.length (d - 1) (by omega) e.child]
  · unfold count_paths
    rw [if_neg (by simp [hdeg])]
    unfold count_paths_path incidents_from sort_pairs_desc
    exact stable_sort_perm _ _
  · intro v
    unfold incident_of
    rw [foldl_add_mod
      (fun d => tget (starting_table g s p.length) v d *
        tget (ending_table g s p.length) v (p.length - d) % U64)
      (List.range (p.length + 1)) 0 (by norm_num [U64])]
    rw [Nat.zero_add]

/-- Witness for C2 at the repo's greedy test graph (ℓ = 2, S = ∅). -/
theorem count_paths_path_mode_spec_witness :
    (⟨[[], [0], [1, 0], [2, 1], [3, 2, 0], [4]]⟩ : Graph).wf = true ∧
    (⟨3, 0, 2, false, false, false⟩ : GreedyParams).use_degree = false ∧
    ((∀ v, v < (⟨[[], [0], [1, 0], [2, 1], [3, 2, 0], [4]]⟩ : Graph).size →
        tget (ending_table ⟨[[], [0], [1, 0], [2, 1], [3, 2, 0], [4]]⟩ [] 2) v 0 =
          (if ([] : List Node).contains v then 0 else 1) ∧
        tget (starting_table ⟨[[], [0], [1, 0], [2, 1], [3, 2, 0], [4]]⟩ [] 2) v 0 =
          (if ([] : List Node).contains v then 0 else 1)) ∧
      (∀ d, 1 ≤ d → d ≤ 2 → ∀ c,
        tget (ending_table ⟨[[], [0], [1, 0], [2, 1], [3, 2, 0], [4]]⟩ [] 2) c d =
          ((((⟨[[], [0], [1, 0], [2, 1], [3, 2, 0], [4]]⟩ : Graph).edges.filter
            (fun e => !([] : List Node).contains e.parent && e.child == c)).map
            (fun e => tget (ending_table ⟨[[], [0], [1, 0], [2, 1], [3, 2, 0], [4]]⟩
              [] 2) e.parent (d - 1))).sum) % U64 ∧
        tget (starting_table ⟨[[], [0], [1, 0], [2, 1], [3, 2, 0], [4]]⟩ [] 2) c d =
          ((((⟨[[], [0], [1, 0], [2, 1], [3, 2, 0], [4]]⟩ : Graph).edges.filter
            (fun e => !([] : List Node).contains e.parent && e.parent == c)).map
            (fun e => tget (starting_table ⟨[[], [0], [1, 0], [2, 1], [3, 2, 0], [4]]⟩
              [] 2) e.child (d - 1))).sum) % U64) ∧
      (count_paths ⟨[[], [0], [1, 0], [2, 1], [3, 2, 0], [4]]⟩ []
          ⟨3, 0, 2, false, false, false⟩).Perm
        (((List.range (⟨[[], [0], [1, 0], [2, 1], [3, 2, 0], [4]]⟩ : Graph).size).filter
          (fun v => !([] : List Node).contains v)).map
          (fun v => ((v, incident_of
            (ending_table ⟨[[], [0], [1, 0], [2, 1], [3, 2, 0], [4]]⟩ [] 2)
            (starting_table ⟨[[], [0], [1, 0], [2, 1], [3, 2, 0], [4]]⟩ [] 2) 2 v) :
            Pair))) ∧
      (∀ v, incident_of
          (ending_table ⟨[[], [0], [1, 0], [2, 1], [3, 2, 0], [4]]⟩ [] 2)
          (starting_table ⟨[[], [0], [1, 0], [2, 1], [3, 2, 0], [4]]⟩ [] 2) 2 v =
        (((List.range (2 + 1)).map
          (fun d => tget (starting_table ⟨[[], [0], [1, 0], [2, 1], [3, 2, 0], [4]]⟩
              [] 2) v d *
            tget (ending_table ⟨[[], [0], [1, 0], [2, 1], [3, 2, 0], [4]]⟩ [] 2) v
              (2 - d) % U64)).sum) % U64) ∧
      (count_paths ⟨[[], [0], [1, 0], [2, 1], [3, 2, 0], [4]]⟩ []
          ⟨3, 0, 2, false, false, false⟩).Pairwise goodOrder) :=
  ⟨by decide, rfl,
   count_paths_path_mode_spec ⟨[[], [0], [1, 0], [2, 1], [3, 2, 0], [4]]⟩ []
     ⟨3, 0, 2, false, false, false⟩ (by decide) rfl⟩

theorem true_next_ending_getD (g : Graph) (s : List Node) (prev : List Nat)
    (c : Nat) :
    (true_next_ending g s prev).getD c 0 =
      ((g.edges.filter (fun e => !s.contains e.parent && e.child == c)).map
        (fun e => prev.getD e.parent 0)).sum := by
  unfold true_next_ending
  rw [fold_set_add_exact (fun e => prev.getD e.parent 0)
    (fun e => s.contains e.parent) (fun e => e.child) g.edges
    (List.replicate g.size 0) c
    (fun e he _ => by
      rw [List.length_replicate]
      exact ((mem_edges g e).mp he).1)]
  rw [replicate_getD, Nat.zero_add]

theorem true_next_starting_getD (g : Graph) (hwf : g.wf = true)
    (s : List Node) (prev : List Nat) (c : Nat) :
    (true_next_starting g s prev).getD c 0 =
      ((g.edges.filter (fun e => !s.contains e.parent && e.parent == c)).map
        (fun e => prev.getD e.child 0)).sum := by
  unfold true_next_starting
  rw [fold_set_add_exact (fun e => prev.getD e.child 0)
    (fun e => s.contains e.parent) (fun e => e.parent) g.edges
    (List.replicate g.size 0) c
    (fun e he _ => by
      rw [List.length_replicate]
      exact (wf_parent_lt g hwf e he).2)]
  rw [replicate_getD, Nat.zero_add]

theorem sum_map_mod {α : Type} (f g : α → Nat) :
    ∀ l : List α, (∀ a ∈ l, f a = g a % U64) →
      ((l.map f).sum) % U64 = ((l.map g).sum) % U64 := by
  intro l
  induction l with
  | nil => intro _; rfl
  | cons a rest ih =>
    intro h
    simp only [List.map_cons, List.sum_cons]
    have hrest := ih (fun b hb => h b (List.mem_cons_of_mem a hb))
    have ha := h a (List.mem_cons_self a rest)
    rw [Nat.add_mod, ha, hrest, Nat.mod_mod_of_dvd _ dvd_rfl, ← Nat.add_mod]

theorem foldl_add_plain (f : Nat → Nat) :
    ∀ (l : List Nat) (acc : Nat),
      l.foldl (fun a d => a + f d) acc = acc + (l.map f).sum := by
  intro l
  induction l with
  | nil => intro acc; simp
  | cons d rest ih =>
    intro acc
    simp only [List.foldl_cons, List.map_cons, List.sum_cons]
    rw [ih]
    ring

theorem tget_true_ending (g : Graph) (s : List Node) (len d : Nat)
    (hd : d ≤ len) (v : Nat) :
    tget (true_ending_table g s len) v d =
      ((true_next_ending g s)^[d] (lvl0 g s)).getD v 0 := by
  unfold tget true_ending_table
  rw [dp_table_getD _ _ _ _ hd]

theorem tget_true_starting (g : Graph) (s : List Node) (len d : Nat)
    (hd : d ≤ len) (v : Nat) :
    tget (true_starting_table g s len) v d =
      ((true_next_starting g s)^[d] (lvl0 g s)).getD v 0 := by
  unfold tget true_starting_table
  rw [dp_table_getD _ _ _ _ hd]

theorem ending_iter_mod (g : Graph) (s : List Node) :
    ∀ (d v : Nat),
      ((next_ending g s)^[d] (lvl0 g s)).getD v 0 =
        ((true_next_ending g s)^[d] (lvl0 g s)).getD v 0 % U64 := by
  intro d
  induction d with
  | zero =>
    intro v
    simp only [Function.iterate_zero_apply]
    rw [lvl0_getD]
    split_ifs <;> norm_num [U64]
  | succ n ih =>
    intro v
    rw [Function.iterate_succ_apply', Function.iterate_succ_apply',
      next_ending_getD, true_next_ending_getD]
    exact sum_map_mod _ _ _ (fun e _ => ih e.parent)

theorem starting_iter_mod (g : Graph) (hwf : g.wf = true) (s : List Node) :
    ∀ (d v : Nat),
      ((next_starting g s)^[d] (lvl0 g s)).getD v 0 =
        ((true_next_starting g s)^[d] (lvl0 g s)).getD v 0 % U64 := by
  intro d
  induction d with
  | zero =>
    intro v
    simp only [Function.iterate_zero_apply]
    rw [lvl0_getD]
    split_ifs <;> norm_num [U64]
  | succ n ih =>
    intro v
    rw [Function.iterate_succ_apply', Function.iterate_succ_apply',
      next_starting_getD g hwf, true_next_starting_getD g hwf]
    exact sum_map_mod _ _ _ (fun e _ => ih e.child)

/-- C7 (amended): the count_paths DP tables are 64-bit unsigned and the
arithmetic WRAPS modulo 2^64 on overflow: every table cell and every
incident count equals the exact (unbounded) count reduced mod 2^64 — no
saturation is performed, and for inputs whose exact counts exceed 2^64
the produced values are the wrapped residues. -/
theorem count_paths_wraps_mod_u64 :
    ∀ (g : Graph) (s : List Node) (len : Nat), g.wf = true →
      (∀ d, d ≤ len → ∀ v, tget (ending_table g s len) v d =
        tget (true_ending_table g s len) v d % U64) ∧
      (∀ d, d ≤ len → ∀ v, tget (starting_table g s len) v d =
        tget (true_starting_table g s len) v d % U64) ∧
      (∀ v, incident_of (ending_table g s len) (starting_table g s len) len v =
        true_incident_of (true_ending_table g s len)
          (true_starting_table g s len) len v % U64) := by
  intro g s len hwf
  refine ⟨?_, ?_, ?_⟩
  · intro d hd v
    rw [tget_ending g s len d hd, tget_true_ending g s len d hd]
    exact ending_iter_mod g s d v
  · intro d hd v
    rw [tget_starting g s len d hd, tget_true_starting g s len d hd]
    exact starting_iter_mod g hwf s d v
  · intro v
    unfold incident_of true_incident_of
    rw [foldl_add_mod
      (fun d => tget (starting_table g s len) v d *
        tget (ending_table g s len) v (len - d) % U64)
      (List.range (len + 1)) 0 (by norm_num [U64]), Nat.zero_add]
    rw [foldl_add_plain
      (fun d => tget (true_starting_table g s len) v d *
        tget (true_ending_table g s len) v (len - d))
      (List.range (len + 1)) 0, Nat.zero_add]
    apply sum_map_mod
    intro d hd
    have hdlen : d ≤ len := by
      have := List.mem_range.mp hd
      omega
    rw [tget_starting g s len d hdlen, tget_true_starting g s len d hdlen,
      tget_ending g s len (len - d) (Nat.sub_le _ _),
      tget_true_ending g s len (len - d) (Nat.sub_le _ _)]
    rw [ending_iter_mod g s (len - d) v, starting_iter_mod g hwf s d v]
    exact (Nat.mul_mod _ _ _).symm

theorem getD_map_range {α : Type} (f : Nat → α) (dflt : α) (n v : Nat)
    (hv : v < n) : ((List.range n).map f).getD v dflt = f v := by
  rw [List.getD_eq_getElem _ _ (by simpa using hv)]
  rw [List.getElem_map, List.getElem_range]

theorem flatMap_range_single {α : Type} (L : Nat → List α) :
    ∀ (n v : Nat), v < n →
      ((List.range n).flatMap (fun c => if c = v then L c else [])) = L v := by
  intro n
  induction n with
  | zero => intro v hv; omega
  | succ m ih =>
    intro v hv
    rw [List.range_succ, List.flatMap_append]
    by_cases hv2 : v < m
    · rw [ih v hv2]
      have : m ≠ v := by omega
      simp [this]
    · have hvm : v = m := by omega
      subst hvm
      have hnil : (List.range v).flatMap (fun c => if c = v then L c else [])
          = [] := by
        rw [List.flatMap_eq_nil_iff]
        intro c hc
        have : c ≠ v := by
          have := List.mem_range.mp hc
          omega
        simp [this]
      rw [hnil]
      simp

/-- With an empty exclusion set, the edges reaching a given node are
exactly the pairs formed from its parent list. -/
theorem edges_filter_child (g : Graph) (v : Nat) (hv : v < g.size) :
    g.edges.filter
        (fun e => !([] : List Node).contains e.parent && e.child == v)
      = (g.parentsOf v).map (fun p => (⟨p, v⟩ : Edge)) := by
  unfold Graph.edges
  rw [List.filter_flatMap]
  have hpt : ∀ c : Nat,
      ((g.parentsOf c).map (fun p => (⟨p, c⟩ : Edge))).filter
          (fun e => !([] : List Node).contains e.parent && e.child == v)
        = if c = v then (g.parentsOf c).map (fun p => (⟨p, c⟩ : Edge))
          else [] := by
    intro c
    rw [List.filter_map]
    by_cases hc : c = v
    · rw [if_pos hc]
      rw [List.filter_eq_self.mpr (fun p _ => by simp [Function.comp, hc])]
    · rw [if_neg hc]
      rw [List.filter_eq_nil_iff.mpr (fun p _ => by simp [Function.comp, hc])]
      simp
  calc (List.range g.size).flatMap (fun c =>
        ((g.parentsOf c).map (fun p => (⟨p, c⟩ : Edge))).filter
          (fun e => !([] : List Node).contains e.parent && e.child == v))
      = (List.range g.size).flatMap (fun c =>
          if c = v then (g.parentsOf c).map (fun p => (⟨p, c⟩ : Edge))
          else []) := by
        simp only [hpt]
    _ = (g.parentsOf v).map (fun p => (⟨p, v⟩ : Edge)) :=
        flatMap_range_single _ g.size v hv

/-- A 66-layer doubling ladder: two nodes per layer, each node of layer
i ≥ 1 has both nodes of layer i - 1 as parents.  The number of directed
paths of length d ending at a node of layer ≥ d is exactly 2^d, so at
d = 65 the exact count exceeds 2^64 and the u64 DP wraps. -/
def ladderG : Graph :=
  ⟨(List.range 132).map (fun v =>
    if v < 2 then [] else [2 * (v / 2) - 2, 2 * (v / 2) - 1])⟩

theorem ladderG_size : ladderG.size = 132 := by
  unfold ladderG Graph.size
  simp

theorem ladderG_parentsOf (v : Nat) (hv : v < 132) :
    ladderG.parentsOf v =
      if v < 2 then [] else [2 * (v / 2) - 2, 2 * (v / 2) - 1] := by
  unfold ladderG Graph.parentsOf
  exact getD_map_range _ _ _ _ hv

theorem ladder_ending_pow :
    ∀ d v, v < 132 → d ≤ v / 2 →
      ((next_ending ladderG [])^[d] (lvl0 ladderG [])).getD v 0 =
        2 ^ d % U64 ∧
      ((true_next_ending ladderG [])^[d] (lvl0 ladderG [])).getD v 0 =
        2 ^ d := by
  intro d
  induction d with
  | zero =>
    intro v hv _
    simp only [Function.iterate_zero_apply]
    rw [lvl0_getD, if_pos (by rw [ladderG_size]; omega :
      v < ladderG.size)]
    simp only [List.contains_nil, if_false]
    constructor
    · norm_num [U64]
    · norm_num
  | succ n ih =>
    intro v hv hd
    have hv2 : ¬ v < 2 := by omega
    have hp1 : 2 * (v / 2) - 2 < 132 := by omega
    have hp2 : 2 * (v / 2) - 1 < 132 := by omega
    have hl1 : n ≤ (2 * (v / 2) - 2) / 2 := by omega
    have hl2 : n ≤ (2 * (v / 2) - 1) / 2 := by omega
    have hvsize : v < ladderG.size := by rw [ladderG_size]; omega
    constructor
    · rw [Function.iterate_succ_apply', next_ending_getD,
        edges_filter_child ladderG v hvsize, ladderG_parentsOf v hv,
        if_neg hv2]
      simp only [List.map_cons, List.map_nil, List.sum_cons, List.sum_nil]
      rw [(ih _ hp1 hl1).1, (ih _ hp2 hl2).1]
      rw [Nat.add_zero, ← Nat.add_mod]
      congr 1
      rw [pow_succ]
      ring
    · rw [Function.iterate_succ_apply', true_next_ending_getD,
        edges_filter_child ladderG v hvsize, ladderG_parentsOf v hv,
        if_neg hv2]
      simp only [List.map_cons, List.map_nil, List.sum_cons, List.sum_nil]
      rw [(ih _ hp1 hl1).2, (ih _ hp2 hl2).2]
      rw [Nat.add_zero, pow_succ]
      ring

/-- C7 counterexample: on the doubling ladder with ℓ = 65 the exact
number of length-65 paths ending at node 130 is 2^65 > 2^64; the u64
`count_paths` table holds the WRAPPED value 0 = 2^65 mod 2^64 — neither
the exact count nor a saturated value. -/
theorem count_paths_u64_wrap_counterexample :
    tget (ending_table ladderG [] 65) 130 65 = 0 ∧
    tget (true_ending_table ladderG [] 65) 130 65 = 2 ^ 65 ∧
    U64 < 2 ^ 65 ∧
    (0 : Nat) = 2 ^ 65 % U64 ∧ (0 : Nat) ≠ 2 ^ 65 ∧ (0 : Nat) ≠ U64 - 1 := by
  have h := ladder_ending_pow 65 130 (by norm_num) (by norm_num)
  refine ⟨?_, ?_, by norm_num [U64], by norm_num [U64], by norm_num,
    by norm_num [U64]⟩
  · rw [tget_ending ladderG [] 65 65 (le_refl _) 130, h.1]
    norm_num [U64]
  · rw [tget_true_ending ladderG [] 65 65 (le_refl _) 130, h.2]

/-- Witness for the amended C7 at the repo's greedy test graph. -/
theorem count_paths_wraps_mod_u64_witness :
    (⟨[[], [0], [1, 0], [2, 1], [3, 2, 0], [4]]⟩ : Graph).wf = true ∧
    ((∀ d, d ≤ 2 → ∀ v,
        tget (ending_table ⟨[[], [0], [1, 0], [2, 1], [3, 2, 0], [4]]⟩ [] 2) v d =
          tget (true_ending_table ⟨[[], [0], [1, 0], [2, 1], [3, 2, 0], [4]]⟩ [] 2)
            v d % U64) ∧
      (∀ d, d ≤ 2 → ∀ v,
        tget (starting_table ⟨[[], [0], [1, 0], [2, 1], [3, 2, 0], [4]]⟩ [] 2) v d =
          tget (true_starting_table ⟨[[], [0], [1, 0], [2, 1], [3, 2, 0], [4]]⟩ [] 2)
            v d % U64) ∧
      (∀ v, incident_of
          (ending_table ⟨[[], [0], [1, 0], [2, 1], [3, 2, 0], [4]]⟩ [] 2)
          (starting_table ⟨[[], [0], [1, 0], [2, 1], [3, 2, 0], [4]]⟩ [] 2) 2 v =
        true_incident_of
          (true_ending_table ⟨[[], [0], [1, 0], [2, 1], [3, 2, 0], [4]]⟩ [] 2)
          (true_starting_table ⟨[[], [0], [1, 0], [2, 1], [3, 2, 0], [4]]⟩ [] 2) 2 v %
          U64)) :=
  ⟨by decide,
   count_paths_wraps_mod_u64 ⟨[[], [0], [1, 0], [2, 1], [3, 2, 0], [4]]⟩ [] 2
     (by decide)⟩

theorem stable_sort_sorted {α : Type} (le : α → α → Bool)
    (htot : ∀ a b, le a b = false → le b a = true)
    (htrans : ∀ a b c, le a b = true → le b c = true → le a c = true)
    (l : List α) :
    (stable_sort le l).Pairwise (fun a b => le a b = true) :=
  stable_sort_pairwise le htot htrans l [] (by simp)

/-- C8: whenever `crossing_edges` returns normally it returns exactly the
edges (p, c) with p, c outside S, left ≤ p < frontier and
frontier < c < left + span, where frontier = left + span/2, sorted by
interval ascending. -/
theorem crossing_edges_exact :
    ∀ (g : Graph) (left span : Nat) (s : List Node) (l : List Edge)
      (fr : Node),
      crossing_edges g left span s = .ok (l, fr) →
      fr = left + span / 2 ∧
      (∀ e : Edge, e ∈ l ↔
        (e ∈ g.edges ∧ s.contains e.parent = false ∧
          s.contains e.child = false ∧ left ≤ e.parent ∧ e.parent < fr ∧
          fr < e.child ∧ e.child < left + span)) ∧
      l.Pairwise (fun a b : Edge => a.interval ≤ b.interval) := by
  intro g left span s l fr h
  simp only [crossing_edges] at h
  split at h
  case isTrue => cases h
  case isFalse hbad =>
    split at h
    case isTrue => cases h
    case isFalse hassert =>
      cases h
      refine ⟨rfl, ?_, ?_⟩
      · intro e
        rw [(stable_sort_perm _ _).mem_iff, List.mem_flatMap]
        constructor
        · rintro ⟨child, hchild, hmem⟩
          by_cases hsc : s.contains child = true
          · rw [if_pos hsc] at hmem
            simp at hmem
          · rw [if_neg hsc] at hmem
            rw [List.mem_filterMap] at hmem
            obtain ⟨parent, hparent, hfp⟩ := hmem
            by_cases h1 : s.contains parent = true
            · rw [if_pos h1] at hfp; cases hfp
            · rw [if_neg h1] at hfp
              by_cases h2 : parent < left + span / 2
              · rw [if_neg (by simpa using h2)] at hfp
                by_cases h3 : parent < left
                · rw [if_pos (by simpa using h3)] at hfp; cases hfp
                · rw [if_neg (by simpa using h3)] at hfp
                  cases hfp
                  obtain ⟨hc1, hc2⟩ := List.mem_range'_1.mp hchild
                  have hcsize : child < g.size := by
                    by_contra hge
                    apply hbad
                    rw [List.any_eq_true]
                    refine ⟨child, hchild, ?_⟩
                    simp only [hsc, Bool.not_false, Bool.true_and,
                      decide_eq_true_eq]
                    exact le_of_not_lt hge
                  refine ⟨(mem_edges g ⟨parent, child⟩).mpr ⟨hcsize, hparent⟩,
                    by simpa using h1, by simpa using hsc,
                    ?_, h2, ?_, ?_⟩
                  · show left ≤ parent
                    exact le_of_not_lt h3
                  · show left + span / 2 < child
                    exact Nat.lt_of_succ_le hc1
                  · show child < left + span
                    rcases Nat.le_total (left + span / 2 + 1) (left + span) with
                      hle | hge2
                    · rwa [Nat.add_sub_cancel' hle] at hc2
                    · rw [Nat.sub_eq_zero_of_le hge2, Nat.add_zero] at hc2
                      exact absurd hc1 (not_le.mpr hc2)
              · rw [if_pos (by simpa using h2)] at hfp
                cases hfp
        · rintro ⟨hedge, hp1, hp2, hp3, hp4, hp5, hp6⟩
          obtain ⟨hcsize, hparent⟩ := (mem_edges g e).mp hedge
          refine ⟨e.child,
            List.mem_range'_1.mpr ⟨Nat.succ_le_of_lt hp5, ?_⟩, ?_⟩
          · rcases Nat.le_total (left + span / 2 + 1) (left + span) with
              hle | hge2
            · rw [Nat.add_sub_cancel' hle]
              exact hp6
            · have hcontra : e.child < left + span / 2 + 1 :=
                lt_of_lt_of_le hp6 hge2
              exact absurd hp5 (not_lt.mpr (Nat.lt_succ_iff.mp hcontra))
          · rw [if_neg (show ¬s.contains e.child = true by rw [hp2]; simp)]
            rw [List.mem_filterMap]
            refine ⟨e.parent, hparent, ?_⟩
            rw [if_neg (show ¬s.contains e.parent = true by rw [hp1]; simp),
              if_neg (by simpa using hp4),
              if_neg (by simpa using not_lt.mpr hp3)]
      · have hs := stable_sort_sorted
          (fun y x : Edge => decide (y.interval ≤ x.interval))
          (fun a b hab => by
            simp only [decide_eq_false_iff_not, not_le] at hab
            simpa using le_of_lt hab)
          (fun a b c hab hbc => by
            simp only [decide_eq_true_eq] at hab hbc ⊢
            exact le_trans hab hbc)
        exact (hs _).imp (fun hab => by simpa using hab)

/-- Witness for C8: a concrete span on the repo's greedy test graph. -/
theorem crossing_edges_exact_witness :
    crossing_edges ⟨[[], [0], [1, 0], [2, 1], [3, 2, 0], [4]]⟩ 0 5 []
        = .ok ([⟨1, 3⟩, ⟨0, 4⟩], 2) ∧
    ((2 : Nat) = 0 + 5 / 2 ∧
      (∀ e : Edge, e ∈ [(⟨1, 3⟩ : Edge), ⟨0, 4⟩] ↔
        (e ∈ (⟨[[], [0], [1, 0], [2, 1], [3, 2, 0], [4]]⟩ : Graph).edges ∧
          ([] : List Node).contains e.parent = false ∧
          ([] : List Node).contains e.child = false ∧ 0 ≤ e.parent ∧
          e.parent < 2 ∧ 2 < e.child ∧ e.child < 0 + 5)) ∧
      ([(⟨1, 3⟩ : Edge), ⟨0, 4⟩] : List Edge).Pairwise
        (fun a b : Edge => a.interval ≤ b.interval)) :=
  ⟨by decide,
   crossing_edges_exact ⟨[[], [0], [1, 0], [2, 1], [3, 2, 0], [4]]⟩ 0 5 []
     [⟨1, 3⟩, ⟨0, 4⟩] 2 (by decide)⟩

/-- C3: each AB16 iteration picks (from the residual graph's partitions,
with m edges, depth d, d' the next power of two ≥ d, k = ⌈log₂ d'⌉ and
max_size = ⌊m/k⌋) a smallest non-empty partition of size ≤ max_size,
failing when none exists; it passes the assertion that the depth of the
residual with that partition's edges removed is ≤ d'/2; the parents of
the partition's edges form S_i, which is removed from the residual and
merged into S; and the loop returns exactly when the new residual's
depth is ≤ target, continuing otherwise. -/
theorem valiant_ab16_iteration_spec :
    (∀ (curr curr2 : Graph) (si : List Node),
        ab16_step curr = .ok (curr2, si) →
        ∃ part ∈ valiant_partitions curr,
          0 < part.length ∧
          part.length ≤ curr.count_edges /
            log2floor (next_power_of_two curr.depth) ∧
          (∀ q ∈ valiant_partitions curr, 0 < q.length →
            q.length ≤ curr.count_edges /
              log2floor (next_power_of_two curr.depth) →
            part.length ≤ q.length) ∧
          curr.depth_exclude_edges part ≤ next_power_of_two curr.depth / 2 ∧
          (∀ v : Node, v ∈ si ↔ ∃ e ∈ part, e.parent = v) ∧
          curr2 = curr.remove si) ∧
    (∀ curr : Graph, log2floor (next_power_of_two curr.depth) ≠ 0 →
        ((valiant_partitions curr).filter (fun q => q.length > 0)).filter
          (fun q => q.length ≤ curr.count_edges /
            log2floor (next_power_of_two curr.depth)) = [] →
        ab16_step curr = .error .unwrapNone) ∧
    (∀ (target fuel : Nat) (curr curr2 : Graph) (s si : List Node),
        ab16_step curr = .ok (curr2, si) →
        (curr2.depth ≤ target →
          ab16_loop target (fuel + 1) curr s =
            .ok (si.foldl (fun acc v => insertNode acc v) s)) ∧
        (target < curr2.depth →
          ab16_loop target (fuel + 1) curr s =
            ab16_loop target fuel curr2
              (si.foldl (fun acc v => insertNode acc v) s))) := by
  refine ⟨?_, ?_, ?_⟩
  · intro curr curr2 si h
    simp only [ab16_step] at h
    split at h
    case isTrue => cases h
    case isFalse hki =>
      split at h
      next heq => cases h
      next chosen heq =>
        split at h
        case isTrue hassert =>
          cases h
          obtain ⟨hmem, hmin⟩ := rust_min_by_key_spec _ _ _ heq
          rw [List.mem_filter] at hmem
          obtain ⟨hmem2, hsize⟩ := hmem
          rw [List.mem_filter] at hmem2
          obtain ⟨hmem3, hpos⟩ := hmem2
          refine ⟨chosen, hmem3, by simpa using hpos, by simpa using hsize,
            ?_, hassert, ?_, rfl⟩
          · intro q hq hqpos hqsize
            apply hmin
            rw [List.mem_filter, List.mem_filter]
            exact ⟨⟨hq, by simpa using hqpos⟩, by simpa using hqsize⟩
          · intro v
            rw [foldl_insertNode_parent_mem]
            simp
        case isFalse => cases h
  · intro curr hki hempty
    simp only [ab16_step]
    rw [if_neg hki, (rust_min_by_key_none _ _).mpr hempty]
  · intro target fuel curr curr2 s si h
    constructor
    · intro hle
      simp only [ab16_loop, h]
      rw [if_pos hle]
    · intro hgt
      simp only [ab16_loop, h]
      rw [if_neg (not_le.mpr hgt)]

/-- Witness for C3 at the 8-node line graph of the repo's AB16 test
(the chosen partition is the bit-2 singleton {(3,4)} and S_i = {3}). -/
theorem valiant_ab16_iteration_spec_witness :
    ab16_step ⟨[[], [0], [1], [2], [3], [4], [5], [6]]⟩
        = .ok (⟨[[], [0], [1], [], [], [4], [5], [6]]⟩, [3]) ∧
    (∃ part ∈ valiant_partitions ⟨[[], [0], [1], [2], [3], [4], [5], [6]]⟩,
      0 < part.length ∧
      part.length ≤
        (⟨[[], [0], [1], [2], [3], [4], [5], [6]]⟩ : Graph).count_edges /
          log2floor (next_power_of_two
            (⟨[[], [0], [1], [2], [3], [4], [5], [6]]⟩ : Graph).depth) ∧
      (∀ q ∈ valiant_partitions ⟨[[], [0], [1], [2], [3], [4], [5], [6]]⟩,
        0 < q.length →
        q.length ≤
          (⟨[[], [0], [1], [2], [3], [4], [5], [6]]⟩ : Graph).count_edges /
            log2floor (next_power_of_two
              (⟨[[], [0], [1], [2], [3], [4], [5], [6]]⟩ : Graph).depth) →
        part.length ≤ q.length) ∧
      (⟨[[], [0], [1], [2], [3], [4], [5], [6]]⟩ : Graph).depth_exclude_edges
          part ≤
        next_power_of_two
          (⟨[[], [0], [1], [2], [3], [4], [5], [6]]⟩ : Graph).depth / 2 ∧
      (∀ v : Node, v ∈ ([3] : List Node) ↔ ∃ e ∈ part, e.parent = v) ∧
      (⟨[[], [0], [1], [], [], [4], [5], [6]]⟩ : Graph) =
        (⟨[[], [0], [1], [2], [3], [4], [5], [6]]⟩ : Graph).remove [3]) :=
  ⟨by decide,
   valiant_ab16_iteration_spec.1 ⟨[[], [0], [1], [2], [3], [4], [5], [6]]⟩
     ⟨[[], [0], [1], [], [], [4], [5], [6]]⟩ [3] (by decide)⟩

/-- C4 (amended): running out of eligible partitions while the predicate
still holds raises the bare constant panic ("no more partitions to use"
— the error value carries no (|S|, depth) snapshot), and the panic
ABORTS the sweep: `attack_with_profile` propagates the first error as-is
— no failure marker is recorded and no later (run, target) is
attacked. -/
theorem exhaustion_aborts_sweep :
    (∀ (partitions : List EdgeSet) (f : List Node → Bool) (fuel : Nat)
        (chosen : List Nat) (s : List Node),
        f s = true → find_next partitions chosen = none →
        valiant_loop partitions f (fuel + 1) chosen s = .error .exhausted) ∧
    (∀ (gen : Nat → Graph) (spec : GraphSpec) (profile : AttackProfile)
        (fuel : Nat) (t : ℚ) (ts : List ℚ) (e : AErr),
        profile_targets profile.range fuel = some (t :: ts) →
        0 < profile.runs →
        attack (gen 0) (retarget profile.attack (rat_to_abs t spec.size)) fuel
          = .error e →
        attack_with_profile gen spec profile fuel = .error e) := by
  constructor
  · intro partitions f fuel chosen s hf hfn
    simp only [valiant_loop]
    rw [if_pos hf, hfn]
  · intro gen spec profile fuel t ts e htargets hruns hattack
    simp only [attack_with_profile, htargets]
    have hinner : (t :: ts).mapM (fun tq =>
        attack (gen 0) (retarget profile.attack (rat_to_abs tq spec.size))
          fuel) = (.error e : Except AErr (List SingleAttackResult)) := by
      rw [List.mapM_cons, hattack]
      rfl
    have houter : (List.range profile.runs).mapM (fun run =>
        (t :: ts).mapM (fun tq =>
          attack (gen run) (retarget profile.attack (rat_to_abs tq spec.size))
            fuel)) =
        (.error e : Except AErr (List (List SingleAttackResult))) := by
      obtain ⟨m, hm⟩ : ∃ m, profile.runs = m + 1 :=
        ⟨profile.runs - 1, by omega⟩
      rw [hm, List.range_succ_eq_map, List.mapM_cons, hinner]
      rfl
    rw [houter]

/-- C4 counterexample: partition exhaustion is the same bare error value
regardless of the current (|S|, depth) — it carries no snapshot — and
the whole driver sweep returns that error: no failure marker, no
continuation to the next target (the profile below has a second target
that is never attacked). -/
theorem exhaustion_driver_counterexample :
    valiant_reduce ⟨[[]]⟩ (.ValiantSize 1) 9 = .error .exhausted ∧
    valiant_reduce ⟨[[], [0], [1]]⟩ (.ValiantSize 9) 9 = .error .exhausted ∧
    attack_with_profile (fun _ => ⟨[[]]⟩) ⟨1⟩
      ⟨1, .Size 1, ⟨1, 1, 3⟩, .ValiantSize 1⟩ 9 = .error .exhausted := by
  refine ⟨by decide, by decide, ?_⟩
  have htargets : profile_targets ⟨1, 1, 3⟩ 9 = some [1, 2] := by
    norm_num [profile_targets, targets_loop]
  simp only [attack_with_profile, htargets]
  have habs1 : rat_to_abs 1 1 = 1 := by norm_num [rat_to_abs]
  have hatt : attack ⟨[[]]⟩ (retarget (.ValiantSize 1) (rat_to_abs 1 1)) 9 =
      .error .exhausted := by
    rw [habs1]
    decide
  have hF0 : ([1, 2] : List ℚ).mapM (fun tq =>
      attack ⟨[[]]⟩ (retarget (.ValiantSize 1) (rat_to_abs tq 1)) 9) =
      (.error .exhausted : Except AErr (List SingleAttackResult)) := by
    rw [List.mapM_cons, hatt]
    rfl
  have houter : (List.range 1).mapM (fun run =>
      ([1, 2] : List ℚ).mapM (fun tq =>
        attack ⟨[[]]⟩ (retarget (.ValiantSize 1) (rat_to_abs tq 1)) 9)) =
      (.error .exhausted : Except AErr (List (List SingleAttackResult))) := by
    rw [show List.range 1 = [0] from rfl, List.mapM_cons, hF0]
    rfl
  rw [houter]

/-- Witness for the amended C4: a two-target sweep whose first attack
exhausts the partitions (edgeless 2-node graph, size target 1). -/
theorem exhaustion_aborts_sweep_witness :
    profile_targets ⟨1/2, 1/2, 3/2⟩ 9 = some [1/2, 1] ∧
    0 < 2 ∧
    attack ⟨[[], []]⟩ (retarget (.ValiantSize 1) (rat_to_abs (1/2) 2)) 9 =
      .error .exhausted ∧
    attack_with_profile (fun _ => ⟨[[], []]⟩) ⟨2⟩
      ⟨2, .Size (1/2), ⟨1/2, 1/2, 3/2⟩, .ValiantSize 1⟩ 9 =
      .error .exhausted := by
  have h1 : profile_targets ⟨1/2, 1/2, 3/2⟩ 9 = some [1/2, 1] := by
    norm_num [profile_targets, targets_loop]
  have h3 : attack ⟨[[], []]⟩ (retarget (.ValiantSize 1) (rat_to_abs (1/2) 2))
      9 = .error .exhausted := by
    rw [show rat_to_abs (1/2) 2 = 1 by norm_num [rat_to_abs]]
    decide
  exact ⟨h1, by norm_num,
    h3, exhaustion_aborts_sweep.2 (fun _ => ⟨[[], []]⟩) ⟨2⟩
      ⟨2, .Size (1/2), ⟨1/2, 1/2, 3/2⟩, .ValiantSize 1⟩ 9 (1/2) [1] .exhausted
      h1 (by norm_num) h3⟩
